import Mathlib

set_option linter.unusedSectionVars false

/-!
# Verification of the directory-diff core (`src/driver/main.py`)

This file gives a shallow embedding of the change-significance classifier
(`DiffViewer.has_significant_changes`), the rendering alignment
(`DiffViewer.highlight_diff`), and the scan pipeline
(`DiffViewer.scan_directories`) of the repository, together with the parts of
CPython's `difflib` module (`SequenceMatcher`, `Differ`) that these methods
call, and proves or refutes the specification's claims about them.

Modelling conventions:
* Python `str` is modelled as `List Char`; Python lists as Lean lists.
* Python dictionaries keyed by `Nat` (`j2len`) are modelled as total
  functions `Nat → Nat` defaulting to `0`, matching `dict.get(key, 0)`.
* Python floats (`0.74`, `0.75`, the ratios `2.0*matches/length`) are
  modelled as exact rationals `ℚ`; for all quantities arising here the float
  comparisons agree with the exact rational ones.
* Filesystem enumeration (`os.walk` inside `DiffViewer.list_files`) is not
  re-executed: `scan_directories` is embedded as a function of the two
  enumeration mappings it consumes and of a read oracle
  (`read_text` succeeding with contents, or raising, modelled by `Option`).
-/

namespace DiffTool

/-- The line-terminator characters recognised by Python's `str.splitlines`
(`\r\n` is additionally treated as a single terminator). -/
def isLineBreak (c : Char) : Bool :=
  c = '\n' || c = '\r' || c = '\x0b' || c = '\x0c' ||
  c = '\x1c' || c = '\x1d' || c = '\x1e' || c = '\u0085' ||
  c = '\u2028' || c = '\u2029'

/-- Worker for `splitlines`: `acc` is the current (reversed) partial line. -/
def splitlinesGo (keepends : Bool) : List Char → List Char → List (List Char)
  | acc, [] => if acc = [] then [] else [acc.reverse]
  | acc, '\r' :: '\n' :: rest =>
      (acc.reverse ++ if keepends then ['\r', '\n'] else []) ::
        splitlinesGo keepends [] rest
  | acc, c :: rest =>
      if isLineBreak c then
        (acc.reverse ++ if keepends then [c] else []) :: splitlinesGo keepends [] rest
      else
        splitlinesGo keepends (c :: acc) rest

/-- Python `str.splitlines(keepends)`: split on line terminators; a trailing
unterminated segment still yields a line; no empty final line is produced for
a terminated string. -/
def splitlines (keepends : Bool) (s : List Char) : List (List Char) :=
  splitlinesGo keepends [] s

/-!
## `difflib.SequenceMatcher`

Embedded from CPython 3.11 `difflib.py`, generic in the element type (it is
used both on sequences of lines and, inside `Differ._fancy_replace`, on
sequences of characters).  `isjunk` is the user junk predicate (`None` in
this repository's usage, i.e. constantly false) and `autojunk` the popularity
heuristic flag (left at its default `True` by the repository).
-/

variable {α : Type} [DecidableEq α]

/-- The ascending list of indices at which `x` occurs in `b`
(`b2j` before junk/popular purging in `SequenceMatcher.__chain_b`). -/
def occurrencesIn (b : List α) (x : α) : List Nat :=
  (List.range b.length).filter (fun j => decide (b.get? j = some x))

/-- `SequenceMatcher.__chain_b`: the `b2j` mapping after purging junk
elements and, when `autojunk` is on and `len(b) >= 200`, purging "popular"
elements (those occurring more than `len(b) // 100 + 1` times).  Missing
keys are modelled by the empty index list (`b2j.get(x, [])`). -/
def b2j (isjunk : α → Bool) (autojunk : Bool) (b : List α) (x : α) : List Nat :=
  if isjunk x then []
  else
    let idxs := occurrencesIn b x
    if autojunk ∧ 200 ≤ b.length ∧ b.length / 100 + 1 < idxs.length then []
    else idxs

/-- `self.bjunk.__contains__`: the set of junk elements that occur in `b`. -/
def isbjunk (isjunk : α → Bool) (b : List α) (x : α) : Bool :=
  isjunk x && decide (x ∈ b)

/-- `a[i] == b[j]`, with both indices in range. -/
def elemsEq (a b : List α) (i j : Nat) : Bool :=
  match a.get? i, b.get? j with
  | some x, some y => decide (x = y)
  | _, _ => false

/-- `isbjunk(b[j])` (out-of-range indices, which never occur in actual use,
count as not junk). -/
def bIdxJunk (isjunk : α → Bool) (b : List α) (j : Nat) : Bool :=
  match b.get? j with
  | some y => isbjunk isjunk b y
  | none => false

/-- The running best match of `find_longest_match`:
`a[besti:besti+bestsize] == b[bestj:bestj+bestsize]`. -/
structure FlmBest where
  besti : Nat
  bestj : Nat
  bestsize : Nat
  deriving Repr, DecidableEq

/-- Inner loop of `find_longest_match` over the occurrence indices `js` of
`a[i]` in `b` (already windowed to `blo ≤ j < bhi`): builds `newj2len` and
updates the best match.  `k = j2len.get(j-1, 0) + 1`; since Python's `j2len`
has no key `-1`, the `j = 0` case reads `0`.  `i-k+1`/`j-k+1` are written
`i+1-k`/`j+1-k` (equal, as `k ≤ i+1` and `k ≤ j+1` always hold here). -/
def flmInner (j2len : Nat → Nat) (i : Nat) :
    List Nat → (Nat → Nat) × FlmBest → (Nat → Nat) × FlmBest
  | [], s => s
  | j :: js, (newj2len, best) =>
      let k := (if j = 0 then 0 else j2len (j - 1)) + 1
      let newj2len' := fun j' => if j' = j then k else newj2len j'
      let best' := if best.bestsize < k then ⟨i + 1 - k, j + 1 - k, k⟩ else best
      flmInner j2len i js (newj2len', best')

/-- The occurrence indices scanned for `a[i]`: Python's
`for j in b2j.get(a[i], []): if j < blo: continue; if j >= bhi: break`
(the `break` is a `takeWhile` because the index lists are ascending). -/
def flmJs (a : List α) (bj : α → List Nat) (blo bhi i : Nat) : List Nat :=
  match a.get? i with
  | some x => ((bj x).takeWhile (fun j => decide (j < bhi))).filter (fun j => decide (blo ≤ j))
  | none => []

/-- Main dynamic-programming loop of `find_longest_match`, iterating over
`i ∈ range(alo, ahi)` with state `(j2len, best)`. -/
def flmMain (a : List α) (bj : α → List Nat) (blo bhi : Nat) :
    List Nat → (Nat → Nat) × FlmBest → (Nat → Nat) × FlmBest
  | [], s => s
  | i :: is, (j2len, best) =>
      let s' := flmInner j2len i (flmJs a bj blo bhi i) (fun _ => 0, best)
      flmMain a bj blo bhi is s'

/-- One of the two backward extension `while` loops at the end of
`find_longest_match` (`junkPhase = false` for the junk-free phase,
`true` for the junk phase). -/
def extendBack (a b : List α) (isjunk : α → Bool) (junkPhase : Bool)
    (alo blo : Nat) (s : FlmBest) : FlmBest :=
  if alo < s.besti ∧ blo < s.bestj ∧
      bIdxJunk isjunk b (s.bestj - 1) = junkPhase ∧
      elemsEq a b (s.besti - 1) (s.bestj - 1) = true then
    extendBack a b isjunk junkPhase alo blo ⟨s.besti - 1, s.bestj - 1, s.bestsize + 1⟩
  else s
termination_by s.besti
decreasing_by omega

/-- One of the two forward extension `while` loops at the end of
`find_longest_match`. -/
def extendFwd (a b : List α) (isjunk : α → Bool) (junkPhase : Bool)
    (ahi bhi : Nat) (s : FlmBest) : FlmBest :=
  if s.besti + s.bestsize < ahi ∧ s.bestj + s.bestsize < bhi ∧
      bIdxJunk isjunk b (s.bestj + s.bestsize) = junkPhase ∧
      elemsEq a b (s.besti + s.bestsize) (s.bestj + s.bestsize) = true then
    extendFwd a b isjunk junkPhase ahi bhi ⟨s.besti, s.bestj, s.bestsize + 1⟩
  else s
termination_by ahi - (s.besti + s.bestsize)
decreasing_by omega

/-- `SequenceMatcher.find_longest_match(alo, ahi, blo, bhi)`. -/
def find_longest_match (isjunk : α → Bool) (autojunk : Bool) (a b : List α)
    (alo ahi blo bhi : Nat) : FlmBest :=
  let bj := b2j isjunk autojunk b
  let s0 := (flmMain a bj blo bhi (List.range' alo (ahi - alo)) (fun _ => 0, ⟨alo, blo, 0⟩)).2
  let s1 := extendBack a b isjunk false alo blo s0
  let s2 := extendFwd a b isjunk false ahi bhi s1
  let s3 := extendBack a b isjunk true alo blo s2
  extendFwd a b isjunk true ahi bhi s3

/-!
### Correctness invariants of `find_longest_match`

`MatchAt a b i j k` states `a[i:i+k] == b[j:j+k]` with all positions in
range; `BestOK` states that a candidate best match lies inside the window
`[alo,ahi) × [blo,bhi)` and is a genuine match.  These facts justify the
termination of `get_matching_blocks`' recursion and the equal-block dumps of
`Differ.compare`.
-/

def MatchAt (a b : List α) (i j k : Nat) : Prop :=
  ∀ t, t < k → ∃ x, a.get? (i + t) = some x ∧ b.get? (j + t) = some x

def BestOK (a b : List α) (alo ahi blo bhi : Nat) (s : FlmBest) : Prop :=
  alo ≤ s.besti ∧ blo ≤ s.bestj ∧
  (s.bestsize ≠ 0 → s.besti + s.bestsize ≤ ahi ∧ s.bestj + s.bestsize ≤ bhi) ∧
  (s.bestsize = 0 → s.besti = alo ∧ s.bestj = blo) ∧
  MatchAt a b s.besti s.bestj s.bestsize

theorem bestOK_mk (a b : List α) (alo ahi blo bhi i j k : Nat)
    (h1 : alo ≤ i) (h2 : blo ≤ j)
    (h3 : k ≠ 0 → i + k ≤ ahi ∧ j + k ≤ bhi)
    (h0 : k = 0 → i = alo ∧ j = blo)
    (h4 : MatchAt a b i j k) : BestOK a b alo ahi blo bhi ⟨i, j, k⟩ :=
  ⟨h1, h2, h3, h0, h4⟩

/-- Invariant of the `j2len` dictionary: a nonzero entry `j2len j = k`
records a match of length `k` ending at positions `(iNext - 1, j)`. -/
def J2LenOK (a b : List α) (alo blo bhi iNext : Nat) (f : Nat → Nat) : Prop :=
  ∀ j, f j ≠ 0 → alo + f j ≤ iNext ∧ blo + f j ≤ j + 1 ∧ j < bhi ∧
    MatchAt a b (iNext - f j) (j + 1 - f j) (f j)

theorem flmInner_ok (a b : List α) (alo blo bhi ahi i : Nat)
    (halo : alo ≤ i) (hahi : i < ahi) (j2len : Nat → Nat)
    (hj2 : J2LenOK a b alo blo bhi i j2len) :
    ∀ js, (∀ j ∈ js, blo ≤ j ∧ j < bhi ∧ ∃ x, a.get? i = some x ∧ b.get? j = some x) →
    ∀ g best, J2LenOK a b alo blo bhi (i + 1) g → BestOK a b alo ahi blo bhi best →
      J2LenOK a b alo blo bhi (i + 1) (flmInner j2len i js (g, best)).1 ∧
      BestOK a b alo ahi blo bhi (flmInner j2len i js (g, best)).2 := by
  intro js
  induction js generalizing j2len with
  | nil => intro _ g best hg hbest; exact ⟨hg, hbest⟩
  | cons j js ih =>
      intro hjs g best hg hbest
      obtain ⟨hbloj, hjbhi, x, hax, hbx⟩ := hjs j (List.mem_cons_self j js)
      simp only [flmInner]
      have hchain : alo + ((if j = 0 then 0 else j2len (j - 1)) + 1) ≤ i + 1 ∧
          blo + ((if j = 0 then 0 else j2len (j - 1)) + 1) ≤ j + 1 ∧
          MatchAt a b (i + 1 - ((if j = 0 then 0 else j2len (j - 1)) + 1))
            (j + 1 - ((if j = 0 then 0 else j2len (j - 1)) + 1))
            ((if j = 0 then 0 else j2len (j - 1)) + 1) := by
        rcases Nat.eq_zero_or_pos (if j = 0 then 0 else j2len (j - 1)) with hm0 | hmp
        · rw [hm0]
          refine ⟨by omega, by omega, ?_⟩
          intro t ht
          have ht0 : t = 0 := by omega
          subst ht0
          have hi1 : i + 1 - (0 + 1) + 0 = i := by omega
          have hj1 : j + 1 - (0 + 1) + 0 = j := by omega
          rw [hi1, hj1]
          exact ⟨x, hax, hbx⟩
        · have hjne : j ≠ 0 := by intro hj0; rw [if_pos hj0] at hmp; omega
          rw [if_neg hjne] at hmp ⊢
          obtain ⟨h1, h2, _, h4⟩ := hj2 (j - 1) (by omega)
          refine ⟨by omega, by omega, ?_⟩
          intro t ht
          rcases Nat.lt_or_ge t (j2len (j - 1)) with htm | htm
          · obtain ⟨y, hy1, hy2⟩ := h4 t htm
            refine ⟨y, ?_, ?_⟩
            · have hrw : i + 1 - (j2len (j - 1) + 1) = i - j2len (j - 1) := by omega
              rw [hrw]; exact hy1
            · have hrw : j + 1 - (j2len (j - 1) + 1) = j - 1 + 1 - j2len (j - 1) := by
                omega
              rw [hrw]; exact hy2
          · refine ⟨x, ?_, ?_⟩
            · have hrw : i + 1 - (j2len (j - 1) + 1) + t = i := by omega
              rw [hrw]; exact hax
            · have hrw : j + 1 - (j2len (j - 1) + 1) + t = j := by omega
              rw [hrw]; exact hbx
      obtain ⟨hcA, hcB, hcC⟩ := hchain
      refine ih j2len hj2 (fun j' hj' => hjs j' (List.mem_cons_of_mem _ hj')) _ _ ?_ ?_
      · -- the updated `newj2len` still satisfies the invariant
        intro j' hne
        by_cases hjj : j' = j
        · subst hjj
          simp only [if_pos rfl] at hne ⊢
          exact ⟨hcA, hcB, hjbhi, hcC⟩
        · simp only [if_neg hjj] at hne ⊢
          exact hg j' hne
      · -- the updated best still satisfies `BestOK`
        by_cases hlt : best.bestsize < (if j = 0 then 0 else j2len (j - 1)) + 1
        · simp only [if_pos hlt]
          apply bestOK_mk
          · omega
          · omega
          · intro _; exact ⟨by omega, by omega⟩
          · intro h; exact absurd h (by omega)
          · exact hcC
        · simp only [if_neg hlt]
          exact hbest

theorem flmMain_ok (isjunk : α → Bool) (autojunk : Bool) (a b : List α)
    (alo blo bhi ahi : Nat) :
    ∀ n i, alo ≤ i → i + n ≤ ahi →
    ∀ j2len best, J2LenOK a b alo blo bhi i j2len → BestOK a b alo ahi blo bhi best →
      BestOK a b alo ahi blo bhi
        (flmMain a (b2j isjunk autojunk b) blo bhi (List.range' i n) (j2len, best)).2 := by
  intro n
  induction n with
  | zero => intro i _ _ j2len best _ hbest; simpa [flmMain] using hbest
  | succ n ih =>
      intro i hi hin j2len best hj2 hbest
      rw [List.range'_succ]
      simp only [flmMain]
      have hjs : ∀ j ∈ flmJs a (b2j isjunk autojunk b) blo bhi i,
          blo ≤ j ∧ j < bhi ∧ ∃ x, a.get? i = some x ∧ b.get? j = some x := by
        intro j hj
        obtain ⟨x, hax⟩ : ∃ x, a.get? i = some x := by
          rcases h : a.get? i with _ | x
          · unfold flmJs at hj; rw [h] at hj; simp at hj
          · exact ⟨x, rfl⟩
        unfold flmJs at hj
        rw [hax] at hj
        · simp only at hj
          have hblo : blo ≤ j := by
            have := List.of_mem_filter hj
            simpa using this
          have hjtw := (List.mem_filter.mp hj).1
          have hbhi : j < bhi := by
            have := List.mem_takeWhile_imp hjtw
            simpa using this
          have hjb2j : j ∈ b2j isjunk autojunk b x :=
            (List.takeWhile_prefix _).sublist.mem hjtw
          have hjocc : j ∈ occurrencesIn b x := by
            simp only [b2j] at hjb2j
            split at hjb2j
            · simp at hjb2j
            · split at hjb2j
              · simp at hjb2j
              · exact hjb2j
          have hbj : b.get? j = some x := by
            have := List.of_mem_filter (p := fun j => decide (b.get? j = some x)) hjocc
            simpa using this
          exact ⟨hblo, hbhi, x, hax, hbj⟩
      have hstep := flmInner_ok a b alo blo bhi ahi i hi (by omega) j2len hj2
        (flmJs a (b2j isjunk autojunk b) blo bhi i) hjs (fun _ => 0) best
        (fun j hj => absurd rfl hj) hbest
      obtain ⟨hg', hbest'⟩ := hstep
      have := ih (i + 1) (by omega) (by omega)
        (flmInner j2len i (flmJs a (b2j isjunk autojunk b) blo bhi i) (fun _ => 0, best)).1
        (flmInner j2len i (flmJs a (b2j isjunk autojunk b) blo bhi i) (fun _ => 0, best)).2
        hg' hbest'
      simpa using this

theorem elemsEq_exists (a b : List α) (i j : Nat) :
    elemsEq a b i j = true → ∃ x, a.get? i = some x ∧ b.get? j = some x := by
  unfold elemsEq
  cases ha : a.get? i with
  | none => cases hb : b.get? j <;> intro h <;> simp at h
  | some x =>
      cases hb : b.get? j with
      | none => intro h; simp at h
      | some y =>
          intro h
          have hxy : x = y := by simpa using h
          subst hxy
          exact ⟨x, rfl, rfl⟩

theorem extendBack_ok (a b : List α) (isjunk : α → Bool) (junkPhase : Bool)
    (alo blo ahi bhi : Nat) :
    ∀ s, BestOK a b alo ahi blo bhi s →
      BestOK a b alo ahi blo bhi (extendBack a b isjunk junkPhase alo blo s) := by
  intro s
  induction s using extendBack.induct a b isjunk junkPhase alo blo with
  | case1 s hcond ih =>
      intro hs
      rw [extendBack, if_pos hcond]
      apply ih
      obtain ⟨h1, h2, h3, h0, h4⟩ := hs
      obtain ⟨hc1, hc2, _, hc4⟩ := hcond
      apply bestOK_mk
      · omega
      · omega
      · intro _
        rcases Nat.eq_zero_or_pos s.bestsize with hz | hp
        · obtain ⟨hz1, hz2⟩ := h0 hz; omega
        · have := h3 (by omega); constructor <;> omega
      · intro h; exact absurd h (by omega)
      · intro t ht
        rcases Nat.eq_zero_or_pos t with rfl | htp
        · obtain ⟨y, hy1, hy2⟩ := elemsEq_exists a b _ _ hc4
          exact ⟨y, by simpa using hy1, by simpa using hy2⟩
        · obtain ⟨y, hy1, hy2⟩ := h4 (t - 1) (by omega)
          refine ⟨y, ?_, ?_⟩
          · have : s.besti - 1 + t = s.besti + (t - 1) := by omega
            rw [this]; exact hy1
          · have : s.bestj - 1 + t = s.bestj + (t - 1) := by omega
            rw [this]; exact hy2
  | case2 s hcond =>
      intro hs
      rw [extendBack, if_neg hcond]
      exact hs

theorem extendFwd_ok (a b : List α) (isjunk : α → Bool) (junkPhase : Bool)
    (alo blo ahi bhi : Nat) :
    ∀ s, BestOK a b alo ahi blo bhi s →
      BestOK a b alo ahi blo bhi (extendFwd a b isjunk junkPhase ahi bhi s) := by
  intro s
  induction s using extendFwd.induct a b isjunk junkPhase ahi bhi with
  | case1 s hcond ih =>
      intro hs
      rw [extendFwd, if_pos hcond]
      apply ih
      obtain ⟨h1, h2, h3, h0, h4⟩ := hs
      obtain ⟨hc1, hc2, _, hc4⟩ := hcond
      apply bestOK_mk
      · exact h1
      · exact h2
      · intro _; constructor <;> omega
      · intro h; exact absurd h (by omega)
      intro t ht
      rcases Nat.lt_or_ge t s.bestsize with htl | htg
      · exact h4 t htl
      · have htt : t = s.bestsize := by omega
        subst htt
        exact elemsEq_exists a b _ _ hc4
  | case2 s hcond =>
      intro hs
      rw [extendFwd, if_neg hcond]
      exact hs

/-- The result of `find_longest_match` lies in the requested window and is a
genuine match. -/
theorem flm_ok (isjunk : α → Bool) (autojunk : Bool) (a b : List α)
    (alo ahi blo bhi : Nat) :
    BestOK a b alo ahi blo bhi (find_longest_match isjunk autojunk a b alo ahi blo bhi) := by
  unfold find_longest_match
  apply extendFwd_ok
  apply extendBack_ok
  apply extendFwd_ok
  apply extendBack_ok
  have hinit : BestOK a b alo ahi blo bhi ⟨alo, blo, 0⟩ :=
    bestOK_mk a b alo ahi blo bhi alo blo 0 (le_refl _) (le_refl _)
      (fun h => absurd rfl h) (fun _ => ⟨rfl, rfl⟩)
      (fun t ht => absurd ht (by omega))
  rcases le_or_lt alo ahi with hle | hlt
  · have := flmMain_ok isjunk autojunk a b alo blo bhi ahi (ahi - alo) alo
      (le_refl _) (by omega) (fun _ => 0) ⟨alo, blo, 0⟩
      (fun j hj => absurd rfl hj) hinit
    exact this
  · have : ahi - alo = 0 := by omega
    rw [this]
    simpa [flmMain] using hinit

/-- One matching block: `a[ai:ai+size] == b[bj:bj+size]`. -/
structure Block where
  ai : Nat
  bj : Nat
  size : Nat
  deriving Repr, DecidableEq

/-- The divide-and-conquer collection of matching blocks.  CPython's
`get_matching_blocks` maintains an explicit LIFO queue of windows and sorts
the collected blocks afterwards; every block from the left sub-window
precedes the pivot, which precedes every block from the right sub-window, so
the sorted list it builds is exactly this recursion's output. -/
def matching_blocks_rec (isjunk : α → Bool) (autojunk : Bool) (a b : List α)
    (alo ahi blo bhi : Nat) : List Block :=
  let s := find_longest_match isjunk autojunk a b alo ahi blo bhi
  if hk : s.bestsize = 0 then []
  else
    (if alo < s.besti ∧ blo < s.bestj then
        matching_blocks_rec isjunk autojunk a b alo s.besti blo s.bestj
      else []) ++
    ⟨s.besti, s.bestj, s.bestsize⟩ ::
    (if s.besti + s.bestsize < ahi ∧ s.bestj + s.bestsize < bhi then
        matching_blocks_rec isjunk autojunk a b (s.besti + s.bestsize) ahi
          (s.bestj + s.bestsize) bhi
      else [])
termination_by (ahi - alo) + (bhi - blo)
decreasing_by
  · rename_i hg
    have hs : s = find_longest_match isjunk autojunk a b alo ahi blo bhi := rfl
    rw [hs] at hk hg
    obtain ⟨h1, h2, h3, h0, _⟩ := flm_ok isjunk autojunk a b alo ahi blo bhi
    have := h3 hk
    omega
  · rename_i hg
    have hs : s = find_longest_match isjunk autojunk a b alo ahi blo bhi := rfl
    rw [hs] at hk hg
    obtain ⟨h1, h2, h3, h0, _⟩ := flm_ok isjunk autojunk a b alo ahi blo bhi
    have := h3 hk
    omega

/-- The adjacent-block collapsing pass at the end of `get_matching_blocks`
(the `non_adjacent` loop), with the running block `cur` as accumulator,
initially the dummy `(0, 0, 0)`. -/
def collapseBlocks (cur : Block) : List Block → List Block
  | [] => if cur.size ≠ 0 then [cur] else []
  | blk :: rest =>
      if cur.ai + cur.size = blk.ai ∧ cur.bj + cur.size = blk.bj then
        collapseBlocks ⟨cur.ai, cur.bj, cur.size + blk.size⟩ rest
      else
        (if cur.size ≠ 0 then [cur] else []) ++ collapseBlocks blk rest

/-- `SequenceMatcher.get_matching_blocks`, including the final sentinel
`(len(a), len(b), 0)`. -/
def get_matching_blocks (isjunk : α → Bool) (autojunk : Bool) (a b : List α) :
    List Block :=
  collapseBlocks ⟨0, 0, 0⟩ (matching_blocks_rec isjunk autojunk a b 0 a.length 0 b.length) ++
    [⟨a.length, b.length, 0⟩]

inductive OpTag where
  | replace
  | delete
  | insert
  | equal
  deriving Repr, DecidableEq

/-- One opcode `(tag, a1, a2, b1, b2)` of `SequenceMatcher.get_opcodes`. -/
structure Op where
  tag : OpTag
  a1 : Nat
  a2 : Nat
  b1 : Nat
  b2 : Nat
  deriving Repr, DecidableEq

/-- `SequenceMatcher.get_opcodes`, as a recursion over the matching blocks
with the cursor pair `(i, j)` as state. -/
def get_opcodes : List Block → Nat → Nat → List Op
  | [], _, _ => []
  | blk :: rest, i, j =>
      (if i < blk.ai ∧ j < blk.bj then [⟨.replace, i, blk.ai, j, blk.bj⟩]
       else if i < blk.ai then [⟨.delete, i, blk.ai, j, blk.bj⟩]
       else if j < blk.bj then [⟨.insert, i, blk.ai, j, blk.bj⟩]
       else []) ++
      (if blk.size ≠ 0 then
        [⟨.equal, blk.ai, blk.ai + blk.size, blk.bj, blk.bj + blk.size⟩]
       else []) ++
      get_opcodes rest (blk.ai + blk.size) (blk.bj + blk.size)

/-- The opcodes of `SequenceMatcher(isjunk, a, b)` with the given `autojunk`
setting. -/
def smOpcodes (isjunk : α → Bool) (autojunk : Bool) (a b : List α) : List Op :=
  get_opcodes (get_matching_blocks isjunk autojunk a b) 0 0

/-- `difflib._calculate_ratio` (as an exact rational). -/
def calculate_ratio (m len : Nat) : ℚ :=
  if len ≠ 0 then 2 * (m : ℚ) / (len : ℚ) else 1

/-- `SequenceMatcher.ratio`. -/
def sm_ratio (isjunk : α → Bool) (autojunk : Bool) (a b : List α) : ℚ :=
  calculate_ratio ((get_matching_blocks isjunk autojunk a b).map Block.size).sum
    (a.length + b.length)

/-- The loop of `SequenceMatcher.quick_ratio`: `avail` is the dictionary
(`none` marks an absent key, in which case `fullbcount.get(elt, 0)`, i.e.
the multiplicity of `elt` in `b`, is consulted). -/
def quickRatioGo (b : List α) : List α → (α → Option Int) → Nat → Nat
  | [], _, acc => acc
  | e :: rest, avail, acc =>
      let numb : Int := match avail e with
        | some v => v
        | none => (b.count e : Int)
      quickRatioGo b rest (fun x => if x = e then some (numb - 1) else avail x)
        (if 0 < numb then acc + 1 else acc)

/-- `SequenceMatcher.quick_ratio`. -/
def quick_ratio (a b : List α) : ℚ :=
  calculate_ratio (quickRatioGo b a (fun _ => none) 0) (a.length + b.length)

/-- `SequenceMatcher.real_quick_ratio`. -/
def real_quick_ratio (a b : List α) : ℚ :=
  calculate_ratio (min a.length b.length) (a.length + b.length)

/-!
## `difflib.Differ`

The repository constructs `difflib.Differ()` with no arguments, so both
`linejunk` and `charjunk` are `None`; the embedding keeps them as parameters
and instantiates both with the constantly-false predicate.  An output line
`"<tag> <text>"` of `Differ.compare` is represented structurally as the pair
of its tag character (`'-'`, `'+'`, `' '` or `'?'`) and its text, so that
`line.startswith('- ')` is exactly the test `tag = '-'`, etc.
-/

/-- A line of text. -/
abbrev Line := List Char

/-- One output line of `Differ.compare`: the Python string `"<tag> <text>"`. -/
structure TL where
  tag : Char
  text : Line
  deriving Repr, DecidableEq

/-- The rendered Python string of a `TL`. -/
def renderTL (tl : TL) : List Char := tl.tag :: ' ' :: tl.text

/-- `Differ._dump(tag, x, lo, hi)`. -/
def dump (tag : Char) (x : List Line) (lo hi : Nat) : List TL :=
  ((x.drop lo).take (hi - lo)).map (fun s => ⟨tag, s⟩)

/-- `Differ._plain_replace` (the `assert alo < ahi and blo < bhi` always
holds at its call sites). -/
def plain_replace (a : List Line) (alo ahi : Nat) (b : List Line) (blo bhi : Nat) :
    List TL :=
  if bhi - blo < ahi - alo then dump '+' b blo bhi ++ dump '-' a alo ahi
  else dump '-' a alo ahi ++ dump '+' b blo bhi

/-- State of `_fancy_replace`'s search loop.  Python leaves `best_i`/`best_j`
unassigned until the first ratio test succeeds; the model initialises them to
`(alo, blo)`, which is only read on unreachable paths (a success of the
ratio tests forces `best_ratio > 0.74` and an assignment). -/
structure FRState where
  eqi : Option (Nat × Nat)
  best_ratio : ℚ
  best_i : Nat
  best_j : Nat

/-- One iteration of the nested search loop of `_fancy_replace` at indices
`(i, j)`: an equal pair records `eqi` (first occurrence only) and skips the
ratio tests; otherwise the three short-circuited ratio tests are applied and
the best-so-far updated on strict improvement. -/
def fancyStep (charjunk : Char → Bool) (a b : List Line) (j i : Nat)
    (s : FRState) : FRState :=
  match a.get? i, b.get? j with
  | some ai, some bj =>
      if ai = bj then
        match s.eqi with
        | none => { s with eqi := some (i, j) }
        | some _ => s
      else
        if real_quick_ratio ai bj > s.best_ratio then
          if quick_ratio ai bj > s.best_ratio then
            if sm_ratio charjunk true ai bj > s.best_ratio then
              ⟨s.eqi, sm_ratio charjunk true ai bj, i, j⟩
            else s
          else s
        else s
  | _, _ => s

/-- The full search loop of `_fancy_replace` (`j` outer over `[blo,bhi)`,
`i` inner over `[alo,ahi)`), starting from `best_ratio = 0.74` and no
equal pair. -/
def fancyScan (charjunk : Char → Bool) (a b : List Line) (alo ahi blo bhi : Nat) :
    FRState :=
  (List.range' blo (bhi - blo)).foldl
    (fun s j => (List.range' alo (ahi - alo)).foldl (fun s' i => fancyStep charjunk a b j i s') s)
    ⟨none, 74 / 100, alo, blo⟩

/-- The intraline tag strings built from the character-level opcodes in
`_fancy_replace` (`'^'` for replace, `'-'` delete, `'+'` insert, `' '`
equal). -/
def buildTags : List Op → List Char × List Char
  | [] => ([], [])
  | op :: rest =>
      let t := buildTags rest
      match op.tag with
      | .replace => (List.replicate (op.a2 - op.a1) '^' ++ t.1,
                     List.replicate (op.b2 - op.b1) '^' ++ t.2)
      | .delete => (List.replicate (op.a2 - op.a1) '-' ++ t.1, t.2)
      | .insert => (t.1, List.replicate (op.b2 - op.b1) '+' ++ t.2)
      | .equal => (List.replicate (op.a2 - op.a1) ' ' ++ t.1,
                   List.replicate (op.b2 - op.b1) ' ' ++ t.2)

/-- Model of Python `str.isspace` restricted to the whitespace characters
that can occur here (tag strings contain only `'^' '-' '+' ' '`, and
original-line whitespace is restored by `_keep_original_ws`). -/
def pyIsSpace (c : Char) : Bool :=
  c = ' ' || c = '\t' || c = '\n' || c = '\r' || c = '\x0b' || c = '\x0c'

/-- `difflib._keep_original_ws`. -/
def keep_original_ws (s tags : List Char) : List Char :=
  (s.zip tags).map (fun ct => if ct.2 = ' ' && pyIsSpace ct.1 then ct.1 else ct.2)

/-- Python `str.rstrip()` over the modelled whitespace set. -/
def pyRstrip (s : List Char) : List Char :=
  (s.reverse.dropWhile pyIsSpace).reverse

/-- `Differ._qformat`. -/
def qformat (aline bline : Line) (atags btags : List Char) : List TL :=
  let at' := pyRstrip (keep_original_ws aline atags)
  let bt' := pyRstrip (keep_original_ws bline btags)
  [⟨'-', aline⟩] ++ (if at' ≠ [] then [⟨'?', at' ++ ['\n']⟩] else []) ++
  [⟨'+', bline⟩] ++ (if bt' ≠ [] then [⟨'?', bt' ++ ['\n']⟩] else [])

/-- Invariant of `fancyScan`'s state: the best pair and any recorded equal
pair lie inside the window, and the recorded equal pair is an actual equal
pair of lines. -/
def FRInv (a b : List Line) (alo ahi blo bhi : Nat) (s : FRState) : Prop :=
  (alo ≤ s.best_i ∧ (s.best_i = alo ∨ s.best_i < ahi) ∧
   blo ≤ s.best_j ∧ (s.best_j = blo ∨ s.best_j < bhi)) ∧
  (∀ p q, s.eqi = some (p, q) → alo ≤ p ∧ p < ahi ∧ blo ≤ q ∧ q < bhi ∧
    ∃ x, a.get? p = some x ∧ b.get? q = some x) ∧
  74 / 100 ≤ s.best_ratio ∧
  (74 / 100 < s.best_ratio →
    alo ≤ s.best_i ∧ s.best_i < ahi ∧ blo ≤ s.best_j ∧ s.best_j < bhi ∧
    (∃ x, a.get? s.best_i = some x) ∧ ∃ y, b.get? s.best_j = some y)

theorem foldl_preserve {β σ : Type _} (P : σ → Prop) (f : σ → β → σ) :
    ∀ (l : List β) (s : σ), P s → (∀ s' x, x ∈ l → P s' → P (f s' x)) →
      P (l.foldl f s) := by
  intro l
  induction l with
  | nil => intro s hs _; exact hs
  | cons x xs ih =>
      intro s hs hstep
      exact ih (f s x) (hstep s x (List.mem_cons_self _ _) hs)
        (fun s' y hy => hstep s' y (List.mem_cons_of_mem _ hy))

theorem fancyStep_inv (charjunk : Char → Bool) (a b : List Line)
    (alo ahi blo bhi i j : Nat) (hi1 : alo ≤ i) (hi2 : i < ahi)
    (hj1 : blo ≤ j) (hj2 : j < bhi) (s : FRState)
    (hs : FRInv a b alo ahi blo bhi s) :
    FRInv a b alo ahi blo bhi (fancyStep charjunk a b j i s) := by
  obtain ⟨h1, h5, h6, h7⟩ := hs
  unfold fancyStep
  cases ha : a.get? i with
  | none => exact ⟨h1, h5, h6, h7⟩
  | some ai =>
      cases hb : b.get? j with
      | none => exact ⟨h1, h5, h6, h7⟩
      | some bj =>
          simp only []
          by_cases heq : ai = bj
          · rw [if_pos heq]
            cases he : s.eqi with
            | none =>
                refine ⟨h1, ?_, h6, h7⟩
                intro p q hpq
                simp only [Option.some.injEq, Prod.mk.injEq] at hpq
                obtain ⟨rfl, rfl⟩ := hpq
                exact ⟨hi1, hi2, hj1, hj2, ai, ha, heq ▸ hb⟩
            | some pq => exact ⟨h1, h5, h6, h7⟩
          · rw [if_neg heq]
            by_cases hr1 : real_quick_ratio ai bj > s.best_ratio
            · rw [if_pos hr1]
              by_cases hr2 : quick_ratio ai bj > s.best_ratio
              · rw [if_pos hr2]
                by_cases hr3 : sm_ratio charjunk true ai bj > s.best_ratio
                · rw [if_pos hr3]
                  refine ⟨⟨hi1, Or.inr hi2, hj1, Or.inr hj2⟩, h5, by
                    simp only []; linarith, ?_⟩
                  intro _
                  exact ⟨hi1, hi2, hj1, hj2, ⟨ai, ha⟩, ⟨bj, hb⟩⟩
                · rw [if_neg hr3]; exact ⟨h1, h5, h6, h7⟩
              · rw [if_neg hr2]; exact ⟨h1, h5, h6, h7⟩
            · rw [if_neg hr1]; exact ⟨h1, h5, h6, h7⟩

theorem fancyScan_inv (charjunk : Char → Bool) (a b : List Line)
    (alo ahi blo bhi : Nat) :
    FRInv a b alo ahi blo bhi (fancyScan charjunk a b alo ahi blo bhi) := by
  unfold fancyScan
  apply foldl_preserve
  · refine ⟨⟨le_refl _, Or.inl rfl, le_refl _, Or.inl rfl⟩, ?_, le_refl _, ?_⟩
    · intro p q hpq
      simp at hpq
    · intro h
      exact absurd h (by simp)
  · intro s j hj hs
    apply foldl_preserve
    · exact hs
    · intro s' i hi hs'
      have hjm := List.mem_range'_1.mp hj
      have him := List.mem_range'_1.mp hi
      exact fancyStep_inv charjunk a b alo ahi blo bhi i j him.1 (by omega)
        hjm.1 (by omega) s' hs'

/-- `Differ._fancy_replace`, with `Differ._fancy_helper` inlined at its two
call sites.  The synch pair is the recorded equal pair when no pair scores
above the cutoff `0.75` (emitting an unchanged line), else the best-scoring
pair (emitting the `-`/`?`/`+`/`?` quad of `_qformat`); with neither, the
window degenerates to `_plain_replace`.  The `a.get?`/`b.get?` matches are
total-function bookkeeping: the scanned indices are always in range. -/
def fancy_replace (charjunk : Char → Bool) (a : List Line) (alo ahi : Nat)
    (b : List Line) (blo bhi : Nat) : List TL :=
  let s := fancyScan charjunk a b alo ahi blo bhi
  if s.best_ratio < 3 / 4 then
    match heq : s.eqi with
    | none => plain_replace a alo ahi b blo bhi
    | some (bi, bj) =>
        (if alo < bi then
          (if blo < bj then fancy_replace charjunk a alo bi b blo bj
           else dump '-' a alo bi)
         else if blo < bj then dump '+' b blo bj else []) ++
        (match a.get? bi with
         | some aelt => [⟨' ', aelt⟩]
         | none => []) ++
        (if bi + 1 < ahi then
          (if bj + 1 < bhi then fancy_replace charjunk a (bi + 1) ahi b (bj + 1) bhi
           else dump '-' a (bi + 1) ahi)
         else if bj + 1 < bhi then dump '+' b (bj + 1) bhi else [])
  else
    (if alo < s.best_i then
      (if blo < s.best_j then fancy_replace charjunk a alo s.best_i b blo s.best_j
       else dump '-' a alo s.best_i)
     else if blo < s.best_j then dump '+' b blo s.best_j else []) ++
    (match a.get? s.best_i, b.get? s.best_j with
     | some aelt, some belt =>
         qformat aelt belt (buildTags (smOpcodes charjunk true aelt belt)).1
           (buildTags (smOpcodes charjunk true aelt belt)).2
     | _, _ => []) ++
    (if s.best_i + 1 < ahi then
      (if s.best_j + 1 < bhi then fancy_replace charjunk a (s.best_i + 1) ahi b (s.best_j + 1) bhi
       else dump '-' a (s.best_i + 1) ahi)
     else if s.best_j + 1 < bhi then dump '+' b (s.best_j + 1) bhi else [])
termination_by (ahi - alo) + (bhi - blo)
decreasing_by
  · rename_i hg hg'
    have hv := (fancyScan_inv charjunk a b alo ahi blo bhi).2.1 bi bj heq
    omega
  · rename_i hg hg'
    have hv := (fancyScan_inv charjunk a b alo ahi blo bhi).2.1 bi bj heq
    omega
  · rename_i hg hg'
    have hs : s = fancyScan charjunk a b alo ahi blo bhi := rfl
    rw [hs] at hg hg'
    obtain ⟨⟨v1, v2, v3, v4⟩, -⟩ := fancyScan_inv charjunk a b alo ahi blo bhi
    omega
  · rename_i hg hg'
    have hs : s = fancyScan charjunk a b alo ahi blo bhi := rfl
    rw [hs] at hg hg'
    obtain ⟨⟨v1, v2, v3, v4⟩, -⟩ := fancyScan_inv charjunk a b alo ahi blo bhi
    omega

/-- `Differ.compare`'s dispatch for a single line-level opcode. -/
def opOut (charjunk : Char → Bool) (a b : List Line) (op : Op) : List TL :=
  match op.tag with
  | .replace => fancy_replace charjunk a op.a1 op.a2 b op.b1 op.b2
  | .delete => dump '-' a op.a1 op.a2
  | .insert => dump '+' b op.b1 op.b2
  | .equal => dump ' ' a op.a1 op.a2

/-- `Differ.compare`'s loop over the line-level opcodes. -/
def compareOps (charjunk : Char → Bool) (a b : List Line) (ops : List Op) : List TL :=
  ops.flatMap (opOut charjunk a b)

/-- `difflib.Differ(linejunk, charjunk).compare(a, b)`. -/
def differ_compare (linejunk : Line → Bool) (charjunk : Char → Bool)
    (a b : List Line) : List TL :=
  compareOps charjunk a b (smOpcodes linejunk true a b)

/-- `difflib.Differ().compare(a, b)` as used by the repository: both junk
filters are `None`. -/
def differlines (a b : List Line) : List TL :=
  differ_compare (fun _ => false) (fun _ => false) a b

/-!
## `DiffViewer.has_significant_changes` and `DiffViewer.highlight_diff`
-/

/-- The count `sum(1 for line in diff if line.startswith('+ ') or
line.startswith('- '))`: on the structural representation, an output line's
rendered string starts with `"+ "`/`"- "` exactly when its tag character is
`'+'`/`'-'` (`'? '` and `'  '` lines never match). -/
def changedCount (d : List TL) : Nat :=
  d.countP (fun tl => tl.tag = '-' || tl.tag = '+')

/-- `changed_lines` of `has_significant_changes`: the changed-line count of
`Differ().compare(content1.splitlines(), content2.splitlines())`. -/
def changed_lines (content1 content2 : List Char) : Nat :=
  changedCount (differlines (splitlines false content1) (splitlines false content2))

/-- `max_lines = max(len(lines1), len(lines2))`. -/
def max_lines (content1 content2 : List Char) : Nat :=
  max (splitlines false content1).length (splitlines false content2).length

/-- `change_ratio = changed_lines / max_lines` (only consulted by the
classifier when `max_lines ≠ 0`; rational division by `0` yields `0`). -/
def change_ratio (content1 content2 : List Char) : ℚ :=
  (changed_lines content1 content2 : ℚ) / (max_lines content1 content2 : ℚ)

/-- `DiffViewer.has_significant_changes(content1, content2)` with the
configured threshold `self.min_change_threshold` as a parameter. -/
def has_significant_changes (content1 content2 : List Char) (threshold : ℚ) : Bool :=
  if (content1 = [] ∧ content2 ≠ []) ∨ (content2 = [] ∧ content1 ≠ []) then true
  else if content1 = [] ∧ content2 = [] then false
  else if max_lines content1 content2 = 0 then false
  else change_ratio content1 content2 ≥ threshold

/-- The alignment script that `DiffViewer.highlight_diff` walks to tag lines
(used when both contents are non-empty):
`Differ().compare(c1.splitlines(True), c2.splitlines(True))`. -/
def highlight_script (c1 c2 : List Char) : List TL :=
  differlines (splitlines true c1) (splitlines true c2)

/-!
## `DiffViewer.scan_directories`

The two `list_files` enumerations are inputs (association lists from
relative path to absolute path); `read_text` is an oracle returning `none`
when the Python call would raise (the `except Exception` branch).  The
Python loop appends to `self.file_pairs`; the `flatMap` below produces the
same list, one optional element per relative path.
-/

/-- Dictionary lookup in an enumeration result. -/
def lookupRel (files : List (String × String)) (rel : String) : Option String :=
  (files.find? (fun e => decide (e.1 = rel))).map (fun e => e.2)

/-- `sorted(set(files1.keys()) | set(files2.keys()))`. -/
def allPaths (files1 files2 : List (String × String)) : List String :=
  ((files1.map Prod.fst ++ files2.map Prod.fst).dedup).mergeSort
    (fun x y => decide (x ≤ y))

/-- `DiffViewer.scan_directories`, producing the `file_pairs` list of
`(f1, f2, rel)` triples. -/
def scan_directories (files1 files2 : List (String × String))
    (readText : String → Option (List Char)) (threshold : ℚ) :
    List (Option String × Option String × String) :=
  (allPaths files1 files2).flatMap (fun rel =>
    match lookupRel files1 rel, lookupRel files2 rel with
    | some f1, some f2 =>
        match readText f1, readText f2 with
        | some c1, some c2 =>
            if c1 ≠ c2 ∧ has_significant_changes c1 c2 threshold = true then
              [(some f1, some f2, rel)]
            else []
        | _, _ => [(some f1, some f2, rel)]
    | o1, o2 => [(o1, o2, rel)])

/-!
## Structural correctness of the matching blocks

`Chained lo hi bs` states that the blocks `bs` are genuine matches whose
windows advance monotonically from cursor `lo` to at most `hi`.  It is the
key invariant carrying the opcode partition / round-trip facts.
-/

/-- `x[lo:hi]`. -/
def slice {β : Type _} (x : List β) (lo hi : Nat) : List β :=
  (x.drop lo).take (hi - lo)

def Chained (a b : List α) : Nat × Nat → Nat × Nat → List Block → Prop
  | lo, hi, [] => lo.1 ≤ hi.1 ∧ lo.2 ≤ hi.2
  | lo, hi, blk :: rest =>
      lo.1 ≤ blk.ai ∧ lo.2 ≤ blk.bj ∧ MatchAt a b blk.ai blk.bj blk.size ∧
      Chained a b (blk.ai + blk.size, blk.bj + blk.size) hi rest

theorem chained_le (a b : List α) :
    ∀ bs (lo hi : Nat × Nat), Chained a b lo hi bs → lo.1 ≤ hi.1 ∧ lo.2 ≤ hi.2 := by
  intro bs
  induction bs with
  | nil => intro lo hi h; exact h
  | cons blk rest ih =>
      intro lo hi h
      obtain ⟨h1, h2, _, h4⟩ := h
      obtain ⟨g1, g2⟩ := ih _ _ h4
      exact ⟨by simp at g1 ⊢; omega, by simp at g2 ⊢; omega⟩

theorem chained_weaken (a b : List α) (bs : List Block) (lo lo' hi : Nat × Nat)
    (h1 : lo'.1 ≤ lo.1) (h2 : lo'.2 ≤ lo.2) (h : Chained a b lo hi bs) :
    Chained a b lo' hi bs := by
  cases bs with
  | nil => exact ⟨le_trans h1 h.1, le_trans h2 h.2⟩
  | cons blk rest =>
      obtain ⟨g1, g2, g3, g4⟩ := h
      exact ⟨le_trans h1 g1, le_trans h2 g2, g3, g4⟩

theorem chained_append (a b : List α) :
    ∀ (L M : List Block) (lo mid hi : Nat × Nat),
      Chained a b lo mid L → Chained a b mid hi M →
      Chained a b lo hi (L ++ M) := by
  intro L
  induction L with
  | nil =>
      intro M lo mid hi hL hM
      exact chained_weaken a b M mid lo hi hL.1 hL.2 hM
  | cons blk rest ih =>
      intro M lo mid hi hL hM
      obtain ⟨g1, g2, g3, g4⟩ := hL
      exact ⟨g1, g2, g3, ih M _ mid hi g4 hM⟩

theorem matching_blocks_rec_chainedN (isjunk : α → Bool) (autojunk : Bool)
    (a b : List α) :
    ∀ N alo ahi blo bhi, (ahi - alo) + (bhi - blo) ≤ N → alo ≤ ahi → blo ≤ bhi →
      Chained a b (alo, blo) (ahi, bhi)
        (matching_blocks_rec isjunk autojunk a b alo ahi blo bhi) := by
  intro N
  induction N using Nat.strong_induction_on with
  | _ N ih =>
      intro alo ahi blo bhi hN hab hbb
      rw [matching_blocks_rec]
      have hok := flm_ok isjunk autojunk a b alo ahi blo bhi
      set s := find_longest_match isjunk autojunk a b alo ahi blo bhi with hs
      obtain ⟨f1, f2, f3, f0, f4⟩ := hok
      split
      · exact ⟨hab, hbb⟩
      · rename_i hk
        obtain ⟨hb1, hb2⟩ := f3 hk
        apply chained_append a b _ _ _ (s.besti, s.bestj)
        · by_cases hc1 : alo < s.besti ∧ blo < s.bestj
          · rw [if_pos hc1]
            exact ih ((s.besti - alo) + (s.bestj - blo)) (by omega) alo s.besti blo
              s.bestj (le_refl _) (by omega) (by omega)
          · rw [if_neg hc1]
            exact ⟨f1, f2⟩
        · refine ⟨le_refl _, le_refl _, f4, ?_⟩
          simp only
          by_cases hc2 : s.besti + s.bestsize < ahi ∧ s.bestj + s.bestsize < bhi
          · rw [if_pos hc2]
            exact ih ((ahi - (s.besti + s.bestsize)) + (bhi - (s.bestj + s.bestsize)))
              (by omega) _ _ _ _ (le_refl _) (by omega) (by omega)
          · rw [if_neg hc2]
            exact ⟨hb1, hb2⟩

theorem matching_blocks_rec_chained (isjunk : α → Bool) (autojunk : Bool)
    (a b : List α) (alo ahi blo bhi : Nat) (hab : alo ≤ ahi) (hbb : blo ≤ bhi) :
    Chained a b (alo, blo) (ahi, bhi)
      (matching_blocks_rec isjunk autojunk a b alo ahi blo bhi) :=
  matching_blocks_rec_chainedN isjunk autojunk a b ((ahi - alo) + (bhi - blo))
    alo ahi blo bhi (le_refl _) hab hbb

theorem matchAt_zero (a b : List α) (i j : Nat) : MatchAt a b i j 0 :=
  fun t ht => absurd ht (by omega)

theorem matchAt_append (a b : List α) (i j k k' : Nat)
    (h1 : MatchAt a b i j k) (h2 : MatchAt a b (i + k) (j + k) k') :
    MatchAt a b i j (k + k') := by
  intro t ht
  rcases Nat.lt_or_ge t k with htk | htk
  · exact h1 t htk
  · obtain ⟨x, hx1, hx2⟩ := h2 (t - k) (by omega)
    refine ⟨x, ?_, ?_⟩
    · have hrw : i + t = i + k + (t - k) := by omega
      rw [hrw]; exact hx1
    · have hrw : j + t = j + k + (t - k) := by omega
      rw [hrw]; exact hx2

theorem collapseBlocks_chained (a b : List α) (hi : Nat × Nat) :
    ∀ bs (cur : Block), MatchAt a b cur.ai cur.bj cur.size →
      Chained a b (cur.ai + cur.size, cur.bj + cur.size) hi bs →
      Chained a b (cur.ai, cur.bj) hi (collapseBlocks cur bs) := by
  intro bs
  induction bs with
  | nil =>
      intro cur hm hch
      unfold collapseBlocks
      by_cases hz : cur.size ≠ 0
      · rw [if_pos hz]
        exact ⟨le_refl _, le_refl _, hm, hch⟩
      · rw [if_neg hz]
        push_neg at hz
        obtain ⟨c1, c2⟩ := hch
        simp only at c1 c2
        exact ⟨by omega, by omega⟩
  | cons blk rest ih =>
      intro cur hm hch
      obtain ⟨c1, c2, c3, c4⟩ := hch
      simp only at c1 c2
      unfold collapseBlocks
      by_cases hadj : cur.ai + cur.size = blk.ai ∧ cur.bj + cur.size = blk.bj
      · rw [if_pos hadj]
        apply ih ⟨cur.ai, cur.bj, cur.size + blk.size⟩
        · exact matchAt_append a b cur.ai cur.bj cur.size blk.size hm
            (by rw [hadj.1, hadj.2]; exact c3)
        · simp only
          have e1 : cur.ai + (cur.size + blk.size) = blk.ai + blk.size := by omega
          have e2 : cur.bj + (cur.size + blk.size) = blk.bj + blk.size := by omega
          rw [e1, e2]
          exact c4
      · rw [if_neg hadj]
        have hrest : Chained a b (blk.ai, blk.bj) hi (collapseBlocks blk rest) :=
          ih blk c3 c4
        by_cases hz : cur.size ≠ 0
        · rw [if_pos hz]
          refine ⟨le_refl _, le_refl _, hm, ?_⟩
          exact chained_weaken a b _ _ _ _ (by simp; omega) (by simp; omega) hrest
        · rw [if_neg hz]
          push_neg at hz
          simp only [List.nil_append]
          exact chained_weaken a b _ _ _ _ (by simp; omega) (by simp; omega) hrest

theorem get_matching_blocks_chained (isjunk : α → Bool) (autojunk : Bool)
    (a b : List α) :
    Chained a b (0, 0) (a.length, b.length)
      (get_matching_blocks isjunk autojunk a b) := by
  unfold get_matching_blocks
  apply chained_append a b _ _ _ (a.length, b.length)
  · have h0 : Chained a b (0 + 0, 0 + 0)
        (a.length, b.length) (matching_blocks_rec isjunk autojunk a b 0 a.length 0 b.length) := by
      simpa using matching_blocks_rec_chained isjunk autojunk a b 0 a.length 0
        b.length (Nat.zero_le _) (Nat.zero_le _)
    exact collapseBlocks_chained a b _ _ ⟨0, 0, 0⟩ (matchAt_zero a b 0 0) h0
  · exact ⟨le_refl _, le_refl _, matchAt_zero a b _ _, by simp, by simp⟩

/-!
## Round-trip projections of the alignment script

`leftProj`/`rightProj` extract, in script order, the lines present on the
left (tags `'-'`, `' '`) respectively right (tags `'+'`, `' '`) side; `'?'`
lines belong to neither.
-/

def leftProj (d : List TL) : List Line :=
  d.filterMap (fun tl => if tl.tag = '-' ∨ tl.tag = ' ' then some tl.text else none)

def rightProj (d : List TL) : List Line :=
  d.filterMap (fun tl => if tl.tag = '+' ∨ tl.tag = ' ' then some tl.text else none)

theorem leftProj_append (d e : List TL) :
    leftProj (d ++ e) = leftProj d ++ leftProj e := by
  unfold leftProj; exact List.filterMap_append _ _ _

theorem rightProj_append (d e : List TL) :
    rightProj (d ++ e) = rightProj d ++ rightProj e := by
  unfold rightProj; exact List.filterMap_append _ _ _

theorem filterMap_mk_some (t : Char) (q : TL → Option Line)
    (hq : ∀ s, q ⟨t, s⟩ = some s) :
    ∀ l : List Line, (l.map (fun s => (⟨t, s⟩ : TL))).filterMap q = l := by
  intro l
  induction l with
  | nil => rfl
  | cons s rest ih => simp [List.filterMap_cons, hq, ih]

theorem filterMap_mk_none (t : Char) (q : TL → Option Line)
    (hq : ∀ s, q ⟨t, s⟩ = none) :
    ∀ l : List Line, (l.map (fun s => (⟨t, s⟩ : TL))).filterMap q = [] := by
  intro l
  induction l with
  | nil => rfl
  | cons s rest ih => simp [List.filterMap_cons, hq, ih]

theorem leftProj_dump_minus (a : List Line) (lo hi : Nat) :
    leftProj (dump '-' a lo hi) = slice a lo hi := by
  unfold leftProj dump slice
  exact filterMap_mk_some '-' _ (fun s => by simp) _

theorem leftProj_dump_space (a : List Line) (lo hi : Nat) :
    leftProj (dump ' ' a lo hi) = slice a lo hi := by
  unfold leftProj dump slice
  exact filterMap_mk_some ' ' _ (fun s => by simp) _

theorem leftProj_dump_plus (a : List Line) (lo hi : Nat) :
    leftProj (dump '+' a lo hi) = [] := by
  unfold leftProj dump
  exact filterMap_mk_none '+' _ (fun s => by simp) _

theorem rightProj_dump_plus (a : List Line) (lo hi : Nat) :
    rightProj (dump '+' a lo hi) = slice a lo hi := by
  unfold rightProj dump slice
  exact filterMap_mk_some '+' _ (fun s => by simp) _

theorem rightProj_dump_space (a : List Line) (lo hi : Nat) :
    rightProj (dump ' ' a lo hi) = slice a lo hi := by
  unfold rightProj dump slice
  exact filterMap_mk_some ' ' _ (fun s => by simp) _

theorem rightProj_dump_minus (a : List Line) (lo hi : Nat) :
    rightProj (dump '-' a lo hi) = [] := by
  unfold rightProj dump
  exact filterMap_mk_none '-' _ (fun s => by simp) _

theorem slice_append {β : Type _} (x : List β) (lo mid hi : Nat)
    (hlm : lo ≤ mid) (hmh : mid ≤ hi) :
    slice x lo mid ++ slice x mid hi = slice x lo hi := by
  unfold slice
  have hd : x.drop mid = (x.drop lo).drop (mid - lo) := by
    rw [List.drop_drop]
    congr 1
    omega
  rw [hd]
  have he : hi - lo = (mid - lo) + (hi - mid) := by omega
  rw [he, List.take_add]

theorem slice_self {β : Type _} (x : List β) : slice x 0 x.length = x := by
  unfold slice; simp

theorem slice_empty {β : Type _} (x : List β) (lo hi : Nat) (h : hi ≤ lo) :
    slice x lo hi = [] := by
  unfold slice
  have : hi - lo = 0 := by omega
  rw [this, List.take_zero]

theorem slice_singleton {β : Type _} (x : List β) (i : Nat) (v : β)
    (h : x.get? i = some v) : slice x i (i + 1) = [v] := by
  unfold slice
  have h1 : i + 1 - i = 1 := by omega
  rw [h1]
  obtain ⟨hlt, hget⟩ := List.get?_eq_some.mp h
  rw [List.take_one_drop_eq_of_lt_length hlt]
  rw [hget]

theorem matchAt_slice_eq (a b : List α) (i j k : Nat) (h : MatchAt a b i j k) :
    slice a i (i + k) = slice b j (j + k) := by
  apply List.ext_get?
  intro t
  unfold slice
  have e1 : i + k - i = k := by omega
  have e2 : j + k - j = k := by omega
  rw [e1, e2]
  by_cases htk : t < k
  · rw [List.get?_take htk, List.get?_take htk, List.get?_drop, List.get?_drop]
    obtain ⟨x, h1, h2⟩ := h t htk
    rw [h1, h2]
  · have l1 : ((a.drop i).take k).length ≤ t := by
      have := List.length_take_le k (a.drop i)
      omega
    have l2 : ((b.drop j).take k).length ≤ t := by
      have := List.length_take_le k (b.drop j)
      omega
    rw [List.get?_eq_none.mpr l1, List.get?_eq_none.mpr l2]

theorem leftProj_qformat (aline bline : Line) (atags btags : List Char) :
    leftProj (qformat aline bline atags btags) = [aline] := by
  unfold qformat
  by_cases h1 : pyRstrip (keep_original_ws aline atags) ≠ [] <;>
    by_cases h2 : pyRstrip (keep_original_ws bline btags) ≠ [] <;>
    simp [leftProj, h1, h2]

theorem rightProj_qformat (aline bline : Line) (atags btags : List Char) :
    rightProj (qformat aline bline atags btags) = [bline] := by
  unfold qformat
  by_cases h1 : pyRstrip (keep_original_ws aline atags) ≠ [] <;>
    by_cases h2 : pyRstrip (keep_original_ws bline btags) ≠ [] <;>
    simp [rightProj, h1, h2]

theorem plain_replace_proj (a : List Line) (alo ahi : Nat) (b : List Line)
    (blo bhi : Nat) :
    leftProj (plain_replace a alo ahi b blo bhi) = slice a alo ahi ∧
    rightProj (plain_replace a alo ahi b blo bhi) = slice b blo bhi := by
  unfold plain_replace
  split <;>
    exact ⟨by rw [leftProj_append, leftProj_dump_minus, leftProj_dump_plus] <;> simp,
      by rw [rightProj_append, rightProj_dump_plus, rightProj_dump_minus] <;> simp⟩

theorem fancy_replace_proj (charjunk : Char → Bool) (a b : List Line) :
    ∀ N alo ahi blo bhi, (ahi - alo) + (bhi - blo) ≤ N →
      alo < ahi → blo < bhi → ahi ≤ a.length → bhi ≤ b.length →
      leftProj (fancy_replace charjunk a alo ahi b blo bhi) = slice a alo ahi ∧
      rightProj (fancy_replace charjunk a alo ahi b blo bhi) = slice b blo bhi := by
  intro N
  induction N using Nat.strong_induction_on with
  | _ N ih =>
      intro alo ahi blo bhi hN hlo1 hlo2 hhi1 hhi2
      rw [fancy_replace]
      have hv := fancyScan_inv charjunk a b alo ahi blo bhi
      set s := fancyScan charjunk a b alo ahi blo bhi with hs
      obtain ⟨⟨v1, v2, v3, v4⟩, veq, v74, vbig⟩ := hv
      have helperProj : ∀ lo1 hi1 lo2 hi2, lo1 ≤ hi1 → lo2 ≤ hi2 →
          (hi1 - lo1) + (hi2 - lo2) < N → hi1 ≤ a.length → hi2 ≤ b.length →
          leftProj (if lo1 < hi1 then
              (if lo2 < hi2 then fancy_replace charjunk a lo1 hi1 b lo2 hi2
               else dump '-' a lo1 hi1)
             else if lo2 < hi2 then dump '+' b lo2 hi2 else []) = slice a lo1 hi1 ∧
          rightProj (if lo1 < hi1 then
              (if lo2 < hi2 then fancy_replace charjunk a lo1 hi1 b lo2 hi2
               else dump '-' a lo1 hi1)
             else if lo2 < hi2 then dump '+' b lo2 hi2 else []) = slice b lo2 hi2 := by
        intro lo1 hi1 lo2 hi2 hle1 hle2 hm hb1 hb2
        by_cases c1 : lo1 < hi1
        · rw [if_pos c1]
          by_cases c2 : lo2 < hi2
          · rw [if_pos c2]
            exact ih _ hm lo1 hi1 lo2 hi2 (le_refl _) c1 c2 hb1 hb2
          · rw [if_neg c2]
            refine ⟨leftProj_dump_minus a lo1 hi1, ?_⟩
            rw [rightProj_dump_minus, slice_empty b lo2 hi2 (by omega)]
        · rw [if_neg c1]
          by_cases c2 : lo2 < hi2
          · rw [if_pos c2]
            exact ⟨by rw [leftProj_dump_plus, slice_empty a lo1 hi1 (by omega)],
              rightProj_dump_plus b lo2 hi2⟩
          · rw [if_neg c2]
            exact ⟨by rw [slice_empty a lo1 hi1 (by omega)]; rfl,
              by rw [slice_empty b lo2 hi2 (by omega)]; rfl⟩
      split
      · -- best_ratio < cutoff
        split
        · -- no equal pair either: plain replace
          exact plain_replace_proj a alo ahi b blo bhi
        · -- synch on the first equal pair
          rename_i bi bj heqi
          obtain ⟨e1, e2, e3, e4, x, ex1, ex2⟩ := veq bi bj heqi
          rw [ex1]
          have hH1 := helperProj alo bi blo bj (by omega) (by omega) (by omega)
            (by omega) (by omega)
          have hH2 := helperProj (bi + 1) ahi (bj + 1) bhi (by omega) (by omega)
            (by omega) hhi1 hhi2
          constructor
          · rw [leftProj_append, leftProj_append, hH1.1, hH2.1]
            have hmid : leftProj [(⟨' ', x⟩ : TL)] = [x] := by simp [leftProj]
            rw [hmid, ← slice_singleton a bi x ex1]
            rw [slice_append a alo bi (bi + 1) (by omega) (by omega),
              slice_append a alo (bi + 1) ahi (by omega) (by omega)]
          · rw [rightProj_append, rightProj_append, hH1.2, hH2.2]
            have hmid : rightProj [(⟨' ', x⟩ : TL)] = [x] := by simp [rightProj]
            rw [hmid, ← slice_singleton b bj x ex2]
            rw [slice_append b blo bj (bj + 1) (by omega) (by omega),
              slice_append b blo (bj + 1) bhi (by omega) (by omega)]
      · -- best-scoring pair as synch point
        rename_i hge
        have hbig := vbig (by
          push_neg at hge
          have : (74 : ℚ) / 100 < 3 / 4 := by norm_num
          linarith)
        obtain ⟨w1, w2, w3, w4, ⟨aelt, hae⟩, ⟨belt, hbe⟩⟩ := hbig
        rw [hae, hbe]
        have hH1 := helperProj alo s.best_i blo s.best_j (by omega) (by omega)
          (by omega) (by omega) (by omega)
        have hH2 := helperProj (s.best_i + 1) ahi (s.best_j + 1) bhi (by omega)
          (by omega) (by omega) hhi1 hhi2
        constructor
        · rw [leftProj_append, leftProj_append, hH1.1, hH2.1, leftProj_qformat,
            ← slice_singleton a s.best_i aelt hae]
          rw [slice_append a alo s.best_i (s.best_i + 1) (by omega) (by omega),
            slice_append a alo (s.best_i + 1) ahi (by omega) (by omega)]
        · rw [rightProj_append, rightProj_append, hH1.2, hH2.2, rightProj_qformat,
            ← slice_singleton b s.best_j belt hbe]
          rw [slice_append b blo s.best_j (s.best_j + 1) (by omega) (by omega),
            slice_append b blo (s.best_j + 1) bhi (by omega) (by omega)]

theorem compareOps_nil (charjunk : Char → Bool) (a b : List Line) :
    compareOps charjunk a b [] = [] := rfl

theorem compareOps_append (charjunk : Char → Bool) (a b : List Line)
    (ops1 ops2 : List Op) :
    compareOps charjunk a b (ops1 ++ ops2) =
      compareOps charjunk a b ops1 ++ compareOps charjunk a b ops2 := by
  unfold compareOps
  simp

theorem compareOps_single (charjunk : Char → Bool) (a b : List Line) (op : Op) :
    compareOps charjunk a b [op] = opOut charjunk a b op := by
  unfold compareOps
  simp

def endCursorA (bs : List Block) (i : Nat) : Nat :=
  bs.foldl (fun _ blk => blk.ai + blk.size) i

def endCursorB (bs : List Block) (j : Nat) : Nat :=
  bs.foldl (fun _ blk => blk.bj + blk.size) j

theorem chained_endCursor (a b : List α) :
    ∀ bs (lo hi : Nat × Nat), Chained a b lo hi bs →
      lo.1 ≤ endCursorA bs lo.1 ∧ endCursorA bs lo.1 ≤ hi.1 ∧
      lo.2 ≤ endCursorB bs lo.2 ∧ endCursorB bs lo.2 ≤ hi.2 := by
  intro bs
  induction bs with
  | nil =>
      intro lo hi h
      exact ⟨le_refl _, h.1, le_refl _, h.2⟩
  | cons blk rest ih =>
      intro lo hi h
      obtain ⟨h1, h2, h3, h4⟩ := h
      have hih := ih (blk.ai + blk.size, blk.bj + blk.size) hi h4
      obtain ⟨i1, i2, i3, i4⟩ := hih
      simp only at h1 h2 i1 i2 i3 i4
      have eA : endCursorA (blk :: rest) lo.1 = endCursorA rest (blk.ai + blk.size) := rfl
      have eB : endCursorB (blk :: rest) lo.2 = endCursorB rest (blk.bj + blk.size) := rfl
      rw [eA, eB]
      exact ⟨by omega, i2, by omega, i4⟩

theorem compareOps_proj (charjunk : Char → Bool) (a b : List Line) :
    ∀ bs i j, Chained a b (i, j) (a.length, b.length) bs →
      leftProj (compareOps charjunk a b (get_opcodes bs i j)) =
        slice a i (endCursorA bs i) ∧
      rightProj (compareOps charjunk a b (get_opcodes bs i j)) =
        slice b j (endCursorB bs j) := by
  intro bs
  induction bs with
  | nil =>
      intro i j _
      constructor
      · rw [show get_opcodes ([] : List Block) i j = [] from rfl, compareOps_nil,
          show endCursorA ([] : List Block) i = i from rfl,
          slice_empty a i i (le_refl _)]
        rfl
      · rw [show get_opcodes ([] : List Block) i j = [] from rfl, compareOps_nil,
          show endCursorB ([] : List Block) j = j from rfl,
          slice_empty b j j (le_refl _)]
        rfl
  | cons blk rest ih =>
      intro i j h
      obtain ⟨h1, h2, h3, h4⟩ := h
      simp only at h1 h2
      have hle := chained_le a b rest _ _ h4
      simp only at hle
      have hend := chained_endCursor a b rest _ _ h4
      obtain ⟨q1, q2, q3, q4⟩ := hend
      simp only at q1 q2 q3 q4
      obtain ⟨r1, r2⟩ := ih (blk.ai + blk.size) (blk.bj + blk.size) h4
      have hgap : leftProj (compareOps charjunk a b
            (if i < blk.ai ∧ j < blk.bj then [⟨.replace, i, blk.ai, j, blk.bj⟩]
             else if i < blk.ai then [⟨.delete, i, blk.ai, j, blk.bj⟩]
             else if j < blk.bj then [⟨.insert, i, blk.ai, j, blk.bj⟩]
             else [])) = slice a i blk.ai ∧
          rightProj (compareOps charjunk a b
            (if i < blk.ai ∧ j < blk.bj then [⟨.replace, i, blk.ai, j, blk.bj⟩]
             else if i < blk.ai then [⟨.delete, i, blk.ai, j, blk.bj⟩]
             else if j < blk.bj then [⟨.insert, i, blk.ai, j, blk.bj⟩]
             else [])) = slice b j blk.bj := by
        by_cases c1 : i < blk.ai ∧ j < blk.bj
        · rw [if_pos c1, compareOps_single,
            show opOut charjunk a b ⟨.replace, i, blk.ai, j, blk.bj⟩ =
              fancy_replace charjunk a i blk.ai b j blk.bj from rfl]
          exact fancy_replace_proj charjunk a b ((blk.ai - i) + (blk.bj - j))
            i blk.ai j blk.bj (le_refl _) c1.1 c1.2 (by omega) (by omega)
        · rw [if_neg c1]
          by_cases c2 : i < blk.ai
          · rw [if_pos c2, compareOps_single,
              show opOut charjunk a b ⟨.delete, i, blk.ai, j, blk.bj⟩ =
                dump '-' a i blk.ai from rfl]
            refine ⟨leftProj_dump_minus a i blk.ai, ?_⟩
            rw [rightProj_dump_minus, slice_empty b j blk.bj (by omega)]
          · rw [if_neg c2]
            by_cases c3 : j < blk.bj
            · rw [if_pos c3, compareOps_single,
                show opOut charjunk a b ⟨.insert, i, blk.ai, j, blk.bj⟩ =
                  dump '+' b j blk.bj from rfl]
              refine ⟨?_, rightProj_dump_plus b j blk.bj⟩
              rw [leftProj_dump_plus, slice_empty a i blk.ai (by omega)]
            · rw [if_neg c3, compareOps_nil]
              constructor
              · rw [slice_empty a i blk.ai (by omega)]; rfl
              · rw [slice_empty b j blk.bj (by omega)]; rfl
      have heqc : leftProj (compareOps charjunk a b (if blk.size ≠ 0 then
            [⟨.equal, blk.ai, blk.ai + blk.size, blk.bj, blk.bj + blk.size⟩] else [])) =
            slice a blk.ai (blk.ai + blk.size) ∧
          rightProj (compareOps charjunk a b (if blk.size ≠ 0 then
            [⟨.equal, blk.ai, blk.ai + blk.size, blk.bj, blk.bj + blk.size⟩] else [])) =
            slice b blk.bj (blk.bj + blk.size) := by
        by_cases hz : blk.size ≠ 0
        · rw [if_pos hz, compareOps_single,
            show opOut charjunk a b
                ⟨.equal, blk.ai, blk.ai + blk.size, blk.bj, blk.bj + blk.size⟩ =
              dump ' ' a blk.ai (blk.ai + blk.size) from rfl]
          refine ⟨leftProj_dump_space a blk.ai (blk.ai + blk.size), ?_⟩
          rw [rightProj_dump_space]
          exact matchAt_slice_eq a b blk.ai blk.bj blk.size h3
        · rw [if_neg hz, compareOps_nil]
          push_neg at hz
          constructor
          · rw [slice_empty a _ _ (by omega)]; rfl
          · rw [slice_empty b _ _ (by omega)]; rfl
      rw [get_opcodes, compareOps_append, compareOps_append, leftProj_append,
        leftProj_append, rightProj_append, rightProj_append,
        show endCursorA (blk :: rest) i = endCursorA rest (blk.ai + blk.size) from rfl,
        show endCursorB (blk :: rest) j = endCursorB rest (blk.bj + blk.size) from rfl,
        hgap.1, hgap.2, heqc.1, heqc.2, r1, r2]
      constructor
      · rw [slice_append a i blk.ai (blk.ai + blk.size) (by omega) (by omega),
          slice_append a i (blk.ai + blk.size) (endCursorA rest (blk.ai + blk.size))
            (by omega) q1]
      · rw [slice_append b j blk.bj (blk.bj + blk.size) (by omega) (by omega),
          slice_append b j (blk.bj + blk.size) (endCursorB rest (blk.bj + blk.size))
            (by omega) q3]

/-- Round trip of `Differ.compare`: the `'-'`/`'  '` lines, in order, are
exactly `a`, and the `'+'`/`'  '` lines are exactly `b`. -/
theorem differ_compare_roundtrip (linejunk : Line → Bool) (charjunk : Char → Bool)
    (a b : List Line) :
    leftProj (differ_compare linejunk charjunk a b) = a ∧
    rightProj (differ_compare linejunk charjunk a b) = b := by
  unfold differ_compare smOpcodes
  have hch := get_matching_blocks_chained linejunk true a b
  have h := compareOps_proj charjunk a b (get_matching_blocks linejunk true a b) 0 0 hch
  have hA : endCursorA (get_matching_blocks linejunk true a b) 0 = a.length := by
    unfold get_matching_blocks endCursorA
    rw [List.foldl_append]
    simp
  have hB : endCursorB (get_matching_blocks linejunk true a b) 0 = b.length := by
    unfold get_matching_blocks endCursorB
    rw [List.foldl_append]
    simp
  rw [hA, hB, slice_self, slice_self] at h
  exact h

/-!
## Counting consequences of the round trip
-/

def countTag (t : Char) (d : List TL) : Nat := d.countP (fun tl => tl.tag = t)

theorem changedCount_split (d : List TL) :
    changedCount d = countTag '-' d + countTag '+' d := by
  unfold changedCount countTag
  induction d with
  | nil => rfl
  | cons tl rest ih =>
      rw [List.countP_cons, List.countP_cons, List.countP_cons]
      by_cases h1 : tl.tag = '-' <;> by_cases h2 : tl.tag = '+' <;>
        simp [h1, h2, ih] <;> omega

theorem leftProj_length (d : List TL) :
    (leftProj d).length = countTag '-' d + countTag ' ' d := by
  unfold leftProj countTag
  induction d with
  | nil => rfl
  | cons tl rest ih =>
      rw [List.filterMap_cons, List.countP_cons, List.countP_cons]
      by_cases h1 : tl.tag = '-' <;> by_cases h2 : tl.tag = ' ' <;>
        simp [h1, h2, ih] <;> omega

theorem rightProj_length (d : List TL) :
    (rightProj d).length = countTag '+' d + countTag ' ' d := by
  unfold rightProj countTag
  induction d with
  | nil => rfl
  | cons tl rest ih =>
      rw [List.filterMap_cons, List.countP_cons, List.countP_cons]
      by_cases h1 : tl.tag = '+' <;> by_cases h2 : tl.tag = ' ' <;>
        simp [h1, h2, ih] <;> omega

theorem changedCount_le (linejunk : Line → Bool) (charjunk : Char → Bool)
    (a b : List Line) :
    changedCount (differ_compare linejunk charjunk a b) ≤ a.length + b.length := by
  obtain ⟨hL, hR⟩ := differ_compare_roundtrip linejunk charjunk a b
  have h1 := leftProj_length (differ_compare linejunk charjunk a b)
  have h2 := rightProj_length (differ_compare linejunk charjunk a b)
  rw [hL] at h1
  rw [hR] at h2
  rw [changedCount_split]
  omega

theorem change_ratio_nonneg_le_two (c1 c2 : List Char) :
    0 ≤ change_ratio c1 c2 ∧ change_ratio c1 c2 ≤ 2 := by
  have hcle : changed_lines c1 c2 ≤
      (splitlines false c1).length + (splitlines false c2).length :=
    changedCount_le _ _ _ _
  have h2m : (splitlines false c1).length + (splitlines false c2).length ≤
      2 * max_lines c1 c2 := by
    unfold max_lines
    omega
  constructor
  · unfold change_ratio
    positivity
  · unfold change_ratio
    by_cases hm : max_lines c1 c2 = 0
    · rw [hm]
      norm_num
    · rw [div_le_iff (by exact_mod_cast Nat.pos_of_ne_zero hm)]
      have : changed_lines c1 c2 ≤ 2 * max_lines c1 c2 := le_trans hcle h2m
      exact_mod_cast this

/-!
## Properties of the scan pipeline
-/

theorem mem_allPaths (files1 files2 : List (String × String)) (p : String) :
    p ∈ allPaths files1 files2 ↔
      p ∈ files1.map Prod.fst ∨ p ∈ files2.map Prod.fst := by
  unfold allPaths
  rw [(List.mergeSort_perm _ _).mem_iff, List.mem_dedup, List.mem_append]

theorem lookupRel_isSome_mem (files : List (String × String)) (p : String) :
    (lookupRel files p).isSome → p ∈ files.map Prod.fst := by
  unfold lookupRel
  intro h
  cases hf : files.find? (fun e => decide (e.1 = p)) with
  | none => rw [hf] at h; simp at h
  | some e =>
      have hm := List.mem_of_find?_eq_some hf
      have hp := List.find?_some hf
      simp only [decide_eq_true_eq] at hp
      exact List.mem_map.mpr ⟨e, hm, hp⟩

theorem nodup_keys_eq {γ δ : Type _} :
    ∀ (l : List (γ × δ)), (l.map Prod.fst).Nodup →
      ∀ (e e' : γ × δ), e ∈ l → e' ∈ l → e.1 = e'.1 → e = e' := by
  intro l
  induction l with
  | nil => intro _ e e' he; simp at he
  | cons x xs ih =>
      intro hnd e e' he he' hk
      rw [List.map_cons, List.nodup_cons] at hnd
      rcases List.mem_cons.mp he with he1 | he1
      · rcases List.mem_cons.mp he' with he2 | he2
        · rw [he1, he2]
        · subst he1
          have hmem : e'.1 ∈ xs.map Prod.fst := List.mem_map.mpr ⟨e', he2, rfl⟩
          rw [← hk] at hmem
          exact absurd hmem hnd.1
      · rcases List.mem_cons.mp he' with he2 | he2
        · subst he2
          have hmem : e.1 ∈ xs.map Prod.fst := List.mem_map.mpr ⟨e, he1, rfl⟩
          rw [hk] at hmem
          exact absurd hmem hnd.1
        · exact ih hnd.2 e e' he1 he2 hk

theorem lookupRel_perm (files files' : List (String × String))
    (hperm : files.Perm files') (hnd : (files.map Prod.fst).Nodup) (p : String) :
    lookupRel files p = lookupRel files' p := by
  unfold lookupRel
  cases hf : files.find? (fun e => decide (e.1 = p)) with
  | none =>
      cases hf' : files'.find? (fun e => decide (e.1 = p)) with
      | none => rfl
      | some e =>
          have hm : e ∈ files := hperm.mem_iff.mpr (List.mem_of_find?_eq_some hf')
          have hnone := List.find?_eq_none.mp hf e hm
          have := List.find?_some hf'
          exact absurd this hnone
  | some e =>
      cases hf' : files'.find? (fun e => decide (e.1 = p)) with
      | none =>
          have hm : e ∈ files' := hperm.mem_iff.mp (List.mem_of_find?_eq_some hf)
          have hnone := List.find?_eq_none.mp hf' e hm
          have := List.find?_some hf
          exact absurd this hnone
      | some e' =>
          have he : e ∈ files := List.mem_of_find?_eq_some hf
          have he' : e' ∈ files := hperm.mem_iff.mpr (List.mem_of_find?_eq_some hf')
          have hpe : e.1 = p := by simpa using List.find?_some hf
          have hpe' : e'.1 = p := by simpa using List.find?_some hf'
          rw [nodup_keys_eq files hnd e e' he he' (hpe.trans hpe'.symm)]

theorem allPaths_sorted (files1 files2 : List (String × String)) :
    List.Sorted (· ≤ ·) (allPaths files1 files2) := by
  unfold allPaths
  exact List.sorted_mergeSort' _

theorem allPaths_perm (files1 files1' files2 files2' : List (String × String))
    (h1 : files1.Perm files1') (h2 : files2.Perm files2') :
    allPaths files1 files2 = allPaths files1' files2' := by
  unfold allPaths
  apply List.eq_of_perm_of_sorted (r := (· ≤ ·))
  · exact ((List.mergeSort_perm _ _).trans
      (((h1.map Prod.fst).append (h2.map Prod.fst)).dedup)).trans
      (List.mergeSort_perm _ _).symm
  · exact List.sorted_mergeSort' _
  · exact List.sorted_mergeSort' _

theorem scan_directories_perm (files1 files1' files2 files2' : List (String × String))
    (readText : String → Option (List Char)) (t : ℚ)
    (h1 : files1.Perm files1') (h2 : files2.Perm files2')
    (hnd1 : (files1.map Prod.fst).Nodup) (hnd2 : (files2.map Prod.fst).Nodup) :
    scan_directories files1 files2 readText t =
      scan_directories files1' files2' readText t := by
  unfold scan_directories
  rw [← allPaths_perm files1 files1' files2 files2' h1 h2]
  simp only [lookupRel_perm files1 files1' h1 hnd1,
    lookupRel_perm files2 files2' h2 hnd2]

theorem flatMap_proj_sublist {γ : Type _} (g : γ → String) (f : String → List γ)
    (hf : ∀ p, (f p).map g = [p] ∨ (f p).map g = []) :
    ∀ ps : List String, ((ps.flatMap f).map g).Sublist ps := by
  intro ps
  induction ps with
  | nil => simp
  | cons p ps ih =>
      rw [List.flatMap_cons, List.map_append]
      rcases hf p with h | h
      · rw [h]
        exact ih.cons₂ p
      · rw [h, List.nil_append]
        exact ih.trans (List.sublist_cons_self p ps)

theorem scan_directories_proj_sublist (files1 files2 : List (String × String))
    (readText : String → Option (List Char)) (t : ℚ) :
    ((scan_directories files1 files2 readText t).map (fun e => e.2.2)).Sublist
      (allPaths files1 files2) := by
  unfold scan_directories
  apply flatMap_proj_sublist
  intro p
  rcases lookupRel files1 p with _ | f1 <;> rcases lookupRel files2 p with _ | f2
  · exact Or.inl rfl
  · exact Or.inl rfl
  · exact Or.inl rfl
  · simp only
    rcases readText f1 with _ | c1 <;> rcases readText f2 with _ | c2 <;> simp only
    · exact Or.inl rfl
    · exact Or.inl rfl
    · exact Or.inl rfl
    · by_cases hc : c1 ≠ c2 ∧ has_significant_changes c1 c2 t = true
      · rw [if_pos hc]
        exact Or.inl rfl
      · rw [if_neg hc]
        exact Or.inr rfl

theorem scan_directories_sorted (files1 files2 : List (String × String))
    (readText : String → Option (List Char)) (t : ℚ) :
    List.Sorted (· ≤ ·)
      ((scan_directories files1 files2 readText t).map (fun e => e.2.2)) :=
  List.Pairwise.sublist (scan_directories_proj_sublist files1 files2 readText t)
    (allPaths_sorted files1 files2)

theorem scan_retains_single_sided (files1 files2 : List (String × String))
    (readText : String → Option (List Char)) (t : ℚ) (p : String)
    (h : (lookupRel files1 p).isSome ≠ (lookupRel files2 p).isSome) :
    (lookupRel files1 p, lookupRel files2 p, p) ∈
      scan_directories files1 files2 readText t := by
  have hp : p ∈ allPaths files1 files2 := by
    rcases h1 : lookupRel files1 p with _ | l
    · rcases h2 : lookupRel files2 p with _ | l2
      · rw [h1, h2] at h; simp at h
      · exact (mem_allPaths _ _ _).mpr (Or.inr
          (lookupRel_isSome_mem files2 p (by rw [h2]; rfl)))
    · exact (mem_allPaths _ _ _).mpr (Or.inl
        (lookupRel_isSome_mem files1 p (by rw [h1]; rfl)))
  unfold scan_directories
  apply List.mem_flatMap.mpr
  refine ⟨p, hp, ?_⟩
  rcases h1 : lookupRel files1 p with _ | l <;>
    rcases h2 : lookupRel files2 p with _ | l2
  · rw [h1, h2] at h; simp at h
  · simp
  · simp
  · rw [h1, h2] at h; simp at h

/-!
## Identical sequences are fully matched

On `compare(l, l)` the main loop's best match is always diagonal (the first
maximal junk-free chain is found on the diagonal), and the extension loops
then extend it to the full window, so the whole script is unchanged lines.
-/

/-- Whether position `j` has a (junk-free, non-popular) occurrence list. -/
def mblB (bj : α → List Nat) (l : List α) (j : Nat) : Bool :=
  match l.get? j with
  | some x => !(bj x).isEmpty
  | none => false

/-- Length of the maximal run of matchable positions ending at `j`. -/
def dpth (bj : α → List Nat) (l : List α) : Nat → Nat
  | 0 => if mblB bj l 0 then 1 else 0
  | j + 1 => if mblB bj l (j + 1) then dpth bj l j + 1 else 0

theorem dpth_le (bj : α → List Nat) (l : List α) : ∀ j, dpth bj l j ≤ j + 1 := by
  intro j
  induction j with
  | zero => unfold dpth; split <;> omega
  | succ j ih => unfold dpth; split <;> omega

theorem dpth_not_mbl (bj : α → List Nat) (l : List α) (j : Nat)
    (h : mblB bj l j = false) : dpth bj l j = 0 := by
  cases j with
  | zero => unfold dpth; rw [if_neg (by simp [h])]
  | succ j => unfold dpth; rw [if_neg (by simp [h])]

theorem dpth_mbl (bj : α → List Nat) (l : List α) (j : Nat)
    (h : mblB bj l j = true) :
    dpth bj l j = (if j = 0 then 0 else dpth bj l (j - 1)) + 1 := by
  cases j with
  | zero => simp [dpth, h]
  | succ j => simp [dpth, h]

theorem flmInner_append (j2len : Nat → Nat) (i : Nat) :
    ∀ (l1 l2 : List Nat) (s : (Nat → Nat) × FlmBest),
      flmInner j2len i (l1 ++ l2) s = flmInner j2len i l2 (flmInner j2len i l1 s) := by
  intro l1
  induction l1 with
  | nil => intro l2 s; rfl
  | cons j js ih =>
      intro l2 s
      obtain ⟨g, best⟩ := s
      simp only [List.cons_append, flmInner]
      exact ih l2 _

theorem flmInner_g_char (j2len : Nat → Nat) (i : Nat) :
    ∀ js, js.Nodup → ∀ (g : Nat → Nat) (best : FlmBest) (j : Nat),
      (flmInner j2len i js (g, best)).1 j =
        if j ∈ js then (if j = 0 then 0 else j2len (j - 1)) + 1 else g j := by
  intro js
  induction js with
  | nil => intro _ g best j; simp [flmInner]
  | cons j' js ih =>
      intro hnd g best j
      rw [List.nodup_cons] at hnd
      simp only [flmInner]
      rw [ih hnd.2]
      by_cases hj : j = j'
      · subst hj
        rw [if_neg hnd.1]
        simp
      · by_cases hmem : j ∈ js
        · rw [if_pos hmem, if_pos (List.mem_cons_of_mem _ hmem)]
        · rw [if_neg hmem]
          simp [hj, hmem]

theorem flmInner_best_noup (j2len : Nat → Nat) (i : Nat) :
    ∀ js (g : Nat → Nat) (best : FlmBest),
      (∀ j ∈ js, (if j = 0 then 0 else j2len (j - 1)) + 1 ≤ best.bestsize) →
      (flmInner j2len i js (g, best)).2 = best := by
  intro js
  induction js with
  | nil => intro g best _; rfl
  | cons j js ih =>
      intro g best h
      simp only [flmInner]
      rw [if_neg (show ¬best.bestsize < (if j = 0 then 0 else j2len (j - 1)) + 1 by
        have := h j (List.mem_cons_self _ _); omega)]
      exact ih _ best (fun j' hj' => h j' (List.mem_cons_of_mem _ hj'))

theorem occurrencesIn_mem (b : List α) (x : α) (j : Nat) :
    j ∈ occurrencesIn b x ↔ b.get? j = some x := by
  unfold occurrencesIn
  rw [List.mem_filter, List.mem_range, decide_eq_true_eq]
  constructor
  · exact fun h => h.2
  · intro h
    refine ⟨?_, h⟩
    by_contra hnot
    rw [List.get?_eq_none.mpr (by omega)] at h
    cases h

theorem occurrencesIn_sorted (b : List α) (x : α) :
    List.Pairwise (· < ·) (occurrencesIn b x) :=
  (List.pairwise_lt_range b.length).filter _

theorem b2j_eq_or (isjunk : α → Bool) (autojunk : Bool) (b : List α) (x : α) :
    b2j isjunk autojunk b x = [] ∨
    b2j isjunk autojunk b x = occurrencesIn b x := by
  unfold b2j
  split
  · exact Or.inl rfl
  · show (if autojunk = true ∧ 200 ≤ b.length ∧
        b.length / 100 + 1 < (occurrencesIn b x).length then [] else occurrencesIn b x) = [] ∨
      (if autojunk = true ∧ 200 ≤ b.length ∧
        b.length / 100 + 1 < (occurrencesIn b x).length then [] else occurrencesIn b x) =
        occurrencesIn b x
    split
    · exact Or.inl rfl
    · exact Or.inr rfl

theorem b2j_sorted (isjunk : α → Bool) (autojunk : Bool) (b : List α) (x : α) :
    List.Pairwise (· < ·) (b2j isjunk autojunk b x) := by
  rcases b2j_eq_or isjunk autojunk b x with h | h <;> rw [h]
  · exact List.Pairwise.nil
  · exact occurrencesIn_sorted b x

theorem b2j_mem (isjunk : α → Bool) (autojunk : Bool) (b : List α) (x : α)
    (j : Nat) (h : j ∈ b2j isjunk autojunk b x) : b.get? j = some x := by
  rcases b2j_eq_or isjunk autojunk b x with he | he <;> rw [he] at h
  · cases h
  · exact (occurrencesIn_mem b x j).mp h

theorem b2j_self_mem (isjunk : α → Bool) (autojunk : Bool) (b : List α) (x : α)
    (i : Nat) (hget : b.get? i = some x) (hne : b2j isjunk autojunk b x ≠ []) :
    i ∈ b2j isjunk autojunk b x := by
  rcases b2j_eq_or isjunk autojunk b x with he | he
  · exact absurd he hne
  · rw [he]
    exact (occurrencesIn_mem b x i).mpr hget

theorem mblB_of_mem_b2j (isjunk : α → Bool) (autojunk : Bool) (b : List α)
    (x : α) (j : Nat) (h : j ∈ b2j isjunk autojunk b x) :
    mblB (b2j isjunk autojunk b) b j = true := by
  have hg := b2j_mem isjunk autojunk b x j h
  unfold mblB
  rw [hg]
  simp only [Bool.not_eq_true']
  rw [List.isEmpty_eq_false_iff_exists_mem]
  exact ⟨j, h⟩

theorem flmJs_full (bj : α → List Nat) (l : List α)
    (hmem : ∀ x j, j ∈ bj x → l.get? j = some x) (i : Nat) (x : α)
    (hx : l.get? i = some x) :
    flmJs l bj 0 l.length i = bj x := by
  unfold flmJs
  rw [hx]
  simp only
  rw [List.takeWhile_eq_self_iff.mpr, List.filter_eq_self.mpr]
  · intro j _
    simp
  · intro j hj
    have hg := hmem x j hj
    have hlt : j < l.length := by
      by_contra hnot
      rw [List.get?_eq_none.mpr (by omega)] at hg
      cases hg
    simpa using hlt

/-- Unfolding of one step of `flmInner` on a literal state. -/
theorem flmInner_cons (j2len : Nat → Nat) (i j : Nat) (js : List Nat)
    (g : Nat → Nat) (best : FlmBest) :
    flmInner j2len i (j :: js) (g, best) =
      flmInner j2len i js
        (fun j' => if j' = j then (if j = 0 then 0 else j2len (j - 1)) + 1 else g j',
         if best.bestsize < (if j = 0 then 0 else j2len (j - 1)) + 1 then
           ⟨i + 1 - ((if j = 0 then 0 else j2len (j - 1)) + 1),
            j + 1 - ((if j = 0 then 0 else j2len (j - 1)) + 1),
            (if j = 0 then 0 else j2len (j - 1)) + 1⟩
         else best) := rfl

/-- Invariant of the main loop of `find_longest_match` on identical
sequences (`a = b = l`, full window): after processing `i ∈ range(0, m)`,
every `j2len` entry is bounded by the matchable-run depth, the entry on the
diagonal is exact, and the best match is on the diagonal (or still empty)
and dominates every processed depth. -/
def DiagInv (bj : α → List Nat) (l : List α) (m : Nat)
    (j2len : Nat → Nat) (best : FlmBest) : Prop :=
  (∀ j, j2len j ≤ dpth bj l j) ∧
  (∀ j, j2len j ≠ 0 → m ≠ 0 ∧ j2len j ≤ dpth bj l (m - 1)) ∧
  (m ≠ 0 → j2len (m - 1) = dpth bj l (m - 1)) ∧
  (best = ⟨0, 0, 0⟩ ∨ ∃ d k, best = ⟨d, d, k⟩ ∧ k ≠ 0 ∧ d + k ≤ m) ∧
  (∀ t, t < m → dpth bj l t ≤ best.bestsize)

theorem flmStep_diag (bj : α → List Nat) (l : List α)
    (hmem : ∀ x j, j ∈ bj x → l.get? j = some x)
    (hsort : ∀ x, List.Pairwise (· < ·) (bj x))
    (hself : ∀ x i, l.get? i = some x → bj x ≠ [] → i ∈ bj x)
    (i : Nat) (j2len : Nat → Nat) (best : FlmBest)
    (hi : i < l.length)
    (hinv : DiagInv bj l i j2len best) :
    DiagInv bj l (i + 1)
      (flmInner j2len i (flmJs l bj 0 l.length i) (fun _ => 0, best)).1
      (flmInner j2len i (flmJs l bj 0 l.length i) (fun _ => 0, best)).2 := by
  obtain ⟨hA, hB, hE, hC, hD⟩ := hinv
  obtain ⟨x, hx⟩ : ∃ x, l.get? i = some x := by
    cases hg : l.get? i with
    | none => rw [List.get?_eq_none] at hg; omega
    | some x => exact ⟨x, rfl⟩
  rw [flmJs_full bj l hmem i x hx]
  by_cases hne : bj x = []
  · -- empty occurrence list: position i is unmatchable, loop body is a no-op
    rw [hne]
    have hmbl : mblB bj l i = false := by
      unfold mblB
      rw [hx]
      show (!(bj x).isEmpty) = false
      rw [hne]
      rfl
    have hd0 : dpth bj l i = 0 := dpth_not_mbl _ _ _ hmbl
    refine ⟨fun j => Nat.zero_le _, fun j hj => absurd rfl hj, ?_, ?_, ?_⟩
    · intro _
      show (0 : Nat) = _
      rw [Nat.add_sub_cancel, hd0]
    · rcases hC with h0 | ⟨d, k, he, hk, hle⟩
      · exact Or.inl h0
      · exact Or.inr ⟨d, k, he, hk, by omega⟩
    · intro t ht
      rcases Nat.lt_succ_iff_lt_or_eq.mp ht with h | h
      · exact hD t h
      · subst h
        rw [hd0]
        exact Nat.zero_le _
  · -- position i is matchable: the occurrence list is `bj x` and contains i
    have hmbl : mblB bj l i = true := by
      unfold mblB
      rw [hx]
      show (!(bj x).isEmpty) = true
      simp only [Bool.not_eq_true']
      rw [List.isEmpty_eq_false_iff_exists_mem]
      exact ⟨i, hself x i hx hne⟩
    have hii : i ∈ bj x := hself x i hx hne
    have hKdpth : ∀ j ∈ bj x,
        (if j = 0 then 0 else j2len (j - 1)) + 1 ≤ dpth bj l j := by
      intro j hj
      have hmblj : mblB bj l j = true := by
        unfold mblB
        rw [hmem x j hj]
        show (!(bj x).isEmpty) = true
        simp only [Bool.not_eq_true']
        rw [List.isEmpty_eq_false_iff_exists_mem]
        exact ⟨j, hj⟩
      rw [dpth_mbl bj l j hmblj]
      by_cases h0 : j = 0
      · rw [if_pos h0, if_pos h0]
      · rw [if_neg h0, if_neg h0]
        have := hA (j - 1)
        omega
    have hdi1 : 1 ≤ dpth bj l i := by
      rw [dpth_mbl bj l i hmbl]
      omega
    have hKi_le : ∀ j : Nat,
        (if j = 0 then 0 else j2len (j - 1)) + 1 ≤ dpth bj l i := by
      intro j
      by_cases h0 : j = 0
      · rw [if_pos h0]
        omega
      · rw [if_neg h0]
        by_cases hz : j2len (j - 1) = 0
        · rw [hz]
          omega
        · obtain ⟨hi0, hle⟩ := hB (j - 1) hz
          rw [dpth_mbl bj l i hmbl, if_neg hi0]
          omega
    have hKi_eq : (if i = 0 then 0 else j2len (i - 1)) + 1 = dpth bj l i := by
      rw [dpth_mbl bj l i hmbl]
      by_cases h0 : i = 0
      · rw [if_pos h0, if_pos h0]
      · rw [if_neg h0, if_neg h0, hE h0]
    obtain ⟨js₁, js₂, hsplit⟩ := List.append_of_mem hii
    have hpw := hsort x
    rw [hsplit, List.pairwise_append] at hpw
    obtain ⟨hpw1, hpw2, hcross⟩ := hpw
    have hlt1 : ∀ j ∈ js₁, j < i := fun j hj => hcross j hj i (List.mem_cons_self _ _)
    have hnd : (bj x).Nodup := (hsort x).imp (fun h => Nat.ne_of_lt h)
    have hnoup1 : ∀ j ∈ js₁,
        (if j = 0 then 0 else j2len (j - 1)) + 1 ≤ best.bestsize := by
      intro j hj
      have hjx : j ∈ bj x := by
        rw [hsplit]
        exact List.mem_append_left _ hj
      exact le_trans (hKdpth j hjx) (hD j (hlt1 j hj))
    have hs1 : (flmInner j2len i js₁ (fun _ => 0, best)).2 = best :=
      flmInner_best_noup j2len i js₁ _ best hnoup1
    have heta : flmInner j2len i js₁ (fun _ => 0, best) =
        ((flmInner j2len i js₁ (fun _ => 0, best)).1, best) := by
      have h2 : ((flmInner j2len i js₁ (fun _ => 0, best)).1, best) =
          ((flmInner j2len i js₁ (fun _ => 0, best)).1,
           (flmInner j2len i js₁ (fun _ => 0, best)).2) := by
        rw [hs1]
      rw [h2]
    have hbs' : dpth bj l i ≤
        (if best.bestsize < (if i = 0 then 0 else j2len (i - 1)) + 1 then
          (⟨i + 1 - ((if i = 0 then 0 else j2len (i - 1)) + 1),
            i + 1 - ((if i = 0 then 0 else j2len (i - 1)) + 1),
            (if i = 0 then 0 else j2len (i - 1)) + 1⟩ : FlmBest)
         else best).bestsize := by
      by_cases hcmp : best.bestsize < (if i = 0 then 0 else j2len (i - 1)) + 1
      · rw [if_pos hcmp]
        show dpth bj l i ≤ (if i = 0 then 0 else j2len (i - 1)) + 1
        omega
      · rw [if_neg hcmp]
        omega
    have hmono : best.bestsize ≤
        (if best.bestsize < (if i = 0 then 0 else j2len (i - 1)) + 1 then
          (⟨i + 1 - ((if i = 0 then 0 else j2len (i - 1)) + 1),
            i + 1 - ((if i = 0 then 0 else j2len (i - 1)) + 1),
            (if i = 0 then 0 else j2len (i - 1)) + 1⟩ : FlmBest)
         else best).bestsize := by
      by_cases hcmp : best.bestsize < (if i = 0 then 0 else j2len (i - 1)) + 1
      · rw [if_pos hcmp]
        show best.bestsize ≤ (if i = 0 then 0 else j2len (i - 1)) + 1
        omega
      · rw [if_neg hcmp]
    have hKle : (if i = 0 then 0 else j2len (i - 1)) + 1 ≤ i + 1 := by
      by_cases h0 : i = 0
      · rw [if_pos h0]
        omega
      · rw [if_neg h0]
        have h1 := hA (i - 1)
        have h2 := dpth_le bj l (i - 1)
        omega
    have hnoup2 : ∀ j ∈ js₂,
        (if j = 0 then 0 else j2len (j - 1)) + 1 ≤
        (if best.bestsize < (if i = 0 then 0 else j2len (i - 1)) + 1 then
          (⟨i + 1 - ((if i = 0 then 0 else j2len (i - 1)) + 1),
            i + 1 - ((if i = 0 then 0 else j2len (i - 1)) + 1),
            (if i = 0 then 0 else j2len (i - 1)) + 1⟩ : FlmBest)
         else best).bestsize :=
      fun j _ => le_trans (hKi_le j) hbs'
    have hbesteq : (flmInner j2len i (bj x) (fun _ => 0, best)).2 =
        if best.bestsize < (if i = 0 then 0 else j2len (i - 1)) + 1 then
          (⟨i + 1 - ((if i = 0 then 0 else j2len (i - 1)) + 1),
            i + 1 - ((if i = 0 then 0 else j2len (i - 1)) + 1),
            (if i = 0 then 0 else j2len (i - 1)) + 1⟩ : FlmBest)
        else best := by
      rw [hsplit, flmInner_append, heta, flmInner_cons]
      exact flmInner_best_noup j2len i js₂ _ _ hnoup2
    have hchar := flmInner_g_char j2len i (bj x) hnd (fun _ => 0) best
    refine ⟨?_, ?_, ?_, ?_, ?_⟩
    · intro j
      rw [hchar j]
      by_cases hj : j ∈ bj x
      · rw [if_pos hj]
        exact hKdpth j hj
      · rw [if_neg hj]
        exact Nat.zero_le _
    · intro j hjne
      rw [hchar j] at hjne ⊢
      by_cases hj : j ∈ bj x
      · rw [if_pos hj] at hjne ⊢
        refine ⟨by omega, ?_⟩
        rw [Nat.add_sub_cancel]
        exact hKi_le j
      · rw [if_neg hj] at hjne
        exact absurd rfl hjne
    · intro _
      rw [Nat.add_sub_cancel, hchar i, if_pos hii]
      exact hKi_eq
    · rw [hbesteq]
      by_cases hcmp : best.bestsize < (if i = 0 then 0 else j2len (i - 1)) + 1
      · rw [if_pos hcmp]
        refine Or.inr ⟨i + 1 - ((if i = 0 then 0 else j2len (i - 1)) + 1),
          (if i = 0 then 0 else j2len (i - 1)) + 1, rfl, by omega, by omega⟩
      · rw [if_neg hcmp]
        rcases hC with h0 | ⟨d, k, he, hk, hle⟩
        · exact Or.inl h0
        · exact Or.inr ⟨d, k, he, hk, by omega⟩
    · intro t ht
      rw [hbesteq]
      rcases Nat.lt_succ_iff_lt_or_eq.mp ht with h | h
      · exact le_trans (hD t h) hmono
      · subst h
        exact hbs'

theorem flmMain_diag (bj : α → List Nat) (l : List α)
    (hmem : ∀ x j, j ∈ bj x → l.get? j = some x)
    (hsort : ∀ x, List.Pairwise (· < ·) (bj x))
    (hself : ∀ x i, l.get? i = some x → bj x ≠ [] → i ∈ bj x) :
    ∀ cnt m (j2len : Nat → Nat) (best : FlmBest),
      m + cnt ≤ l.length →
      DiagInv bj l m j2len best →
      DiagInv bj l (m + cnt)
        (flmMain l bj 0 l.length (List.range' m cnt) (j2len, best)).1
        (flmMain l bj 0 l.length (List.range' m cnt) (j2len, best)).2 := by
  intro cnt
  induction cnt with
  | zero =>
      intro m j2len best hle hinv
      show DiagInv bj l (m + 0) j2len best
      rw [Nat.add_zero]
      exact hinv
  | succ cnt ih =>
      intro m j2len best hle hinv
      rw [List.range'_succ]
      simp only [flmMain]
      have hstep := flmStep_diag bj l hmem hsort hself m j2len best (by omega) hinv
      have heta : flmInner j2len m (flmJs l bj 0 l.length m) (fun _ => 0, best) =
          ((flmInner j2len m (flmJs l bj 0 l.length m) (fun _ => 0, best)).1,
           (flmInner j2len m (flmJs l bj 0 l.length m) (fun _ => 0, best)).2) := rfl
      rw [heta]
      have hrec := ih (m + 1) _ _ (by omega) hstep
      have harith : m + 1 + cnt = m + (cnt + 1) := by omega
      rw [harith] at hrec
      exact hrec

theorem bIdxJunk_false (b : List α) (j : Nat) :
    bIdxJunk (fun _ => false) b j = false := by
  unfold bIdxJunk isbjunk
  cases b.get? j <;> rfl

theorem elemsEq_self (l : List α) (m : Nat) (h : m < l.length) :
    elemsEq l l m m = true := by
  unfold elemsEq
  cases hg : l.get? m with
  | none => rw [List.get?_eq_none] at hg; omega
  | some x => simp

theorem extendBack_junk_noop (a b : List α) (alo blo : Nat) (s : FlmBest) :
    extendBack a b (fun _ => false) true alo blo s = s := by
  unfold extendBack
  split
  · rename_i h
    rw [bIdxJunk_false] at h
    exact absurd h.2.2.1 (by simp)
  · rfl

theorem extendFwd_junk_noop (a b : List α) (ahi bhi : Nat) (s : FlmBest) :
    extendFwd a b (fun _ => false) true ahi bhi s = s := by
  unfold extendFwd
  split
  · rename_i h
    rw [bIdxJunk_false] at h
    exact absurd h.2.2.1 (by simp)
  · rfl

/-- On identical sequences the junk-free backward extension loop drags a
diagonal match all the way back to the start of the window. -/
theorem extendBack_diag (l : List α) :
    ∀ d k, d + k ≤ l.length →
      extendBack l l (fun _ => false) false 0 0 ⟨d, d, k⟩ = ⟨0, 0, k + d⟩ := by
  intro d
  induction d with
  | zero =>
      intro k hk
      unfold extendBack
      split
      · rename_i h
        exact absurd h.1 (Nat.lt_irrefl 0)
      · rfl
  | succ d ihd =>
      intro k hk
      unfold extendBack
      split
      · show extendBack l l (fun _ => false) false 0 0 ⟨d, d, k + 1⟩ =
          ⟨0, 0, k + (d + 1)⟩
        rw [ihd (k + 1) (by omega), show k + 1 + d = k + (d + 1) from by omega]
      · rename_i hcond
        exfalso
        apply hcond
        refine ⟨by show 0 < d + 1; omega, by show 0 < d + 1; omega, ?_, ?_⟩
        · exact bIdxJunk_false l _
        · show elemsEq l l d d = true
          exact elemsEq_self l d (by omega)

/-- On identical sequences the junk-free forward extension loop extends a
prefix match to the whole window. -/
theorem extendFwd_diag (l : List α) :
    ∀ c m, m + c = l.length →
      extendFwd l l (fun _ => false) false l.length l.length ⟨0, 0, m⟩ =
        ⟨0, 0, l.length⟩ := by
  intro c
  induction c with
  | zero =>
      intro m hm
      unfold extendFwd
      split
      · rename_i h
        have h1 : (0 : Nat) + m < l.length := h.1
        omega
      · show (⟨0, 0, m⟩ : FlmBest) = ⟨0, 0, l.length⟩
        rw [show m = l.length from by omega]
  | succ c ihc =>
      intro m hm
      unfold extendFwd
      split
      · show extendFwd l l (fun _ => false) false l.length l.length ⟨0, 0, m + 1⟩ =
          ⟨0, 0, l.length⟩
        exact ihc (m + 1) (by omega)
      · rename_i hcond
        exfalso
        apply hcond
        refine ⟨by show (0 : Nat) + m < l.length; omega,
          by show (0 : Nat) + m < l.length; omega, ?_, ?_⟩
        · exact bIdxJunk_false l _
        · show elemsEq l l (0 + m) (0 + m) = true
          exact elemsEq_self l (0 + m) (by omega)

theorem flm_unfold (isjunk : α → Bool) (autojunk : Bool) (a b : List α)
    (alo ahi blo bhi : Nat) :
    find_longest_match isjunk autojunk a b alo ahi blo bhi =
      extendFwd a b isjunk true ahi bhi
        (extendBack a b isjunk true alo blo
          (extendFwd a b isjunk false ahi bhi
            (extendBack a b isjunk false alo blo
              (flmMain a (b2j isjunk autojunk b) blo bhi
                (List.range' alo (ahi - alo)) (fun _ => 0, ⟨alo, blo, 0⟩)).2))) := rfl

/-- `find_longest_match` over the full windows of two identical sequences
(with no junk predicate, as in this repository's use of `Differ`) returns
the whole window as the match. -/
theorem flm_identity (autojunk : Bool) (l : List α) :
    find_longest_match (fun _ => false) autojunk l l 0 l.length 0 l.length =
      ⟨0, 0, l.length⟩ := by
  have hinit : DiagInv (b2j (fun _ => false) autojunk l) l 0 (fun _ => 0)
      ⟨0, 0, 0⟩ :=
    ⟨fun j => Nat.zero_le _, fun j hj => absurd rfl hj, fun h => absurd rfl h,
     Or.inl rfl, fun t ht => absurd ht (by omega)⟩
  have hfin := flmMain_diag (b2j (fun _ => false) autojunk l) l
    (fun x j hj => b2j_mem _ _ _ _ _ hj)
    (fun x => b2j_sorted _ _ _ _)
    (fun x i hg hne => b2j_self_mem _ _ _ _ _ hg hne)
    l.length 0 (fun _ => 0) ⟨0, 0, 0⟩ (by omega) hinit
  rw [Nat.zero_add] at hfin
  obtain ⟨-, -, -, hC, -⟩ := hfin
  rw [flm_unfold, Nat.sub_zero]
  rcases hC with h0 | ⟨d, k, he, hk, hle⟩
  · rw [h0, extendBack_diag l 0 0 (by omega),
      extendFwd_diag l l.length (0 + 0) (by omega),
      extendBack_junk_noop, extendFwd_junk_noop]
  · rw [he, extendBack_diag l d k (by omega),
      extendFwd_diag l (l.length - (k + d)) (k + d) (by omega),
      extendBack_junk_noop, extendFwd_junk_noop]

theorem matching_blocks_rec_identity (autojunk : Bool) (l : List α) :
    matching_blocks_rec (fun _ => false) autojunk l l 0 l.length 0 l.length =
      if l.length = 0 then [] else [(⟨0, 0, l.length⟩ : Block)] := by
  rw [matching_blocks_rec, flm_identity]
  by_cases h0 : l.length = 0
  · rw [if_pos h0, dif_pos (show (⟨0, 0, l.length⟩ : FlmBest).bestsize = 0 from h0)]
  · rw [if_neg h0, dif_neg (show ¬(⟨0, 0, l.length⟩ : FlmBest).bestsize = 0 from h0)]
    simp

theorem get_matching_blocks_identity (autojunk : Bool) (l : List α) :
    get_matching_blocks (fun _ => false) autojunk l l =
      if l.length = 0 then [(⟨0, 0, 0⟩ : Block)]
      else [⟨0, 0, l.length⟩, ⟨l.length, l.length, 0⟩] := by
  unfold get_matching_blocks
  rw [matching_blocks_rec_identity]
  by_cases h0 : l.length = 0
  · rw [if_pos h0, if_pos h0]
    show collapseBlocks ⟨0, 0, 0⟩ [] ++ [⟨l.length, l.length, 0⟩] = [⟨0, 0, 0⟩]
    rw [h0]
    rfl
  · rw [if_neg h0, if_neg h0]
    show collapseBlocks ⟨0, 0, 0⟩ [⟨0, 0, l.length⟩] ++ [⟨l.length, l.length, 0⟩] =
      [⟨0, 0, l.length⟩, ⟨l.length, l.length, 0⟩]
    unfold collapseBlocks
    rw [if_pos (show (⟨0, 0, 0⟩ : Block).ai + (⟨0, 0, 0⟩ : Block).size =
        (⟨0, 0, l.length⟩ : Block).ai ∧ (⟨0, 0, 0⟩ : Block).bj +
        (⟨0, 0, 0⟩ : Block).size = (⟨0, 0, l.length⟩ : Block).bj from ⟨rfl, rfl⟩)]
    unfold collapseBlocks
    rw [if_pos (show (⟨0, 0, 0 + l.length⟩ : Block).size ≠ 0 from by
      show 0 + l.length ≠ 0; omega)]
    show [(⟨0, 0, 0 + l.length⟩ : Block)] ++ [⟨l.length, l.length, 0⟩] =
      [⟨0, 0, l.length⟩, ⟨l.length, l.length, 0⟩]
    rw [Nat.zero_add]
    rfl

theorem smOpcodes_identity (autojunk : Bool) (l : List α) :
    smOpcodes (fun _ => false) autojunk l l =
      if l.length = 0 then []
      else [(⟨.equal, 0, l.length, 0, l.length⟩ : Op)] := by
  unfold smOpcodes
  rw [get_matching_blocks_identity]
  by_cases h0 : l.length = 0
  · rw [if_pos h0, if_pos h0]
    rfl
  · rw [if_neg h0, if_neg h0]
    show (if 0 < (⟨0, 0, l.length⟩ : Block).ai ∧ 0 < (⟨0, 0, l.length⟩ : Block).bj
        then [(⟨.replace, 0, 0, 0, 0⟩ : Op)]
        else if 0 < (⟨0, 0, l.length⟩ : Block).ai then [⟨.delete, 0, 0, 0, 0⟩]
        else if 0 < (⟨0, 0, l.length⟩ : Block).bj then [⟨.insert, 0, 0, 0, 0⟩]
        else []) ++
      (if (⟨0, 0, l.length⟩ : Block).size ≠ 0 then
        [(⟨.equal, 0, 0 + l.length, 0, 0 + l.length⟩ : Op)] else []) ++
      get_opcodes [⟨l.length, l.length, 0⟩] (0 + l.length) (0 + l.length) =
      [⟨.equal, 0, l.length, 0, l.length⟩]
    simp only [show (⟨0, 0, l.length⟩ : Block).ai = 0 from rfl,
      show (⟨0, 0, l.length⟩ : Block).bj = 0 from rfl,
      show (⟨0, 0, l.length⟩ : Block).size = l.length from rfl, Nat.zero_add]
    rw [if_neg (by omega), if_neg (by omega), if_neg (by omega), if_pos h0]
    show [(⟨.equal, 0, l.length, 0, l.length⟩ : Op)] ++
      get_opcodes [⟨l.length, l.length, 0⟩] l.length l.length =
      [⟨.equal, 0, l.length, 0, l.length⟩]
    unfold get_opcodes
    rw [if_neg (by
        show ¬(l.length < (⟨l.length, l.length, 0⟩ : Block).ai ∧
          l.length < (⟨l.length, l.length, 0⟩ : Block).bj)
        show ¬(l.length < l.length ∧ l.length < l.length)
        omega),
      if_neg (show ¬l.length < (⟨l.length, l.length, 0⟩ : Block).ai from by
        show ¬l.length < l.length; omega),
      if_neg (show ¬l.length < (⟨l.length, l.length, 0⟩ : Block).bj from by
        show ¬l.length < l.length; omega),
      if_neg (show ¬(⟨l.length, l.length, 0⟩ : Block).size ≠ 0 from by
        show ¬(0 : Nat) ≠ 0; omega)]
    rfl

/-- `Differ().compare` on two identical line sequences emits every line
tagged `'  '`. -/
theorem differlines_identity (l : List Line) :
    differlines l l = dump ' ' l 0 l.length := by
  unfold differlines differ_compare
  rw [smOpcodes_identity]
  by_cases h0 : l.length = 0
  · rw [if_pos h0]
    show ([] : List TL) = dump ' ' l 0 l.length
    rw [h0]
    rfl
  · rw [if_neg h0]
    show opOut (fun _ => false) l l ⟨.equal, 0, l.length, 0, l.length⟩ ++ [] =
      dump ' ' l 0 l.length
    rw [List.append_nil]
    rfl

theorem changedCount_dump_space (x : List Line) (lo hi : Nat) :
    changedCount (dump ' ' x lo hi) = 0 := by
  unfold changedCount dump
  rw [List.countP_eq_zero]
  intro tl htl
  rw [List.mem_map] at htl
  obtain ⟨s, -, rfl⟩ := htl
  simp

/-- Contents whose (non-keepends) line splits agree produce a changed-line
count of zero in `has_significant_changes`. -/
theorem changed_lines_eq_zero (c1 c2 : List Char)
    (h : splitlines false c1 = splitlines false c2) :
    changed_lines c1 c2 = 0 := by
  unfold changed_lines
  rw [h, differlines_identity]
  exact changedCount_dump_space _ _ _

set_option maxHeartbeats 1600000 in
/-- Unfolding of `splitlinesGo` on a cons that is not a `"\r\n"` pair. -/
theorem splitlinesGo_cons (ke : Bool) (acc : List Char) (c : Char) (rest : List Char)
    (hx : ∀ r, c = '\r' → rest = '\n' :: r → False) :
    splitlinesGo ke acc (c :: rest) =
      if isLineBreak c then
        (acc.reverse ++ if ke then [c] else []) :: splitlinesGo ke [] rest
      else splitlinesGo ke (c :: acc) rest := by
  rw [splitlinesGo.eq_def]
  split
  case h_1 _ _ _ heq => simp at heq
  case h_2 _ _ _ r heq =>
    injection heq with h1 h2
    exact (hx r h1 h2).elim
  case h_3 _ _ _ c' rest' _ heq =>
    injection heq with h1 h2
    subst h1
    subst h2
    rfl

theorem splitlinesGo_ne_nil (ke : Bool) :
    ∀ s acc : List Char, acc ≠ [] ∨ s ≠ [] → splitlinesGo ke acc s ≠ [] := by
  intro s
  induction s with
  | nil =>
      intro acc h
      rcases h with h | h
      · show (if acc = [] then [] else [acc.reverse]) ≠ []
        rw [if_neg h]
        simp
      · exact absurd rfl h
  | cons c rest ih =>
      intro acc _
      by_cases hcr : c = '\r' ∧ ∃ r, rest = '\n' :: r
      · obtain ⟨hc, r, hr⟩ := hcr
        subst hc
        subst hr
        show ((acc.reverse ++ if ke then ['\r', '\n'] else []) ::
          splitlinesGo ke [] r) ≠ []
        simp
      · have hx : ∀ r, c = '\r' → rest = '\n' :: r → False := by
          intro r h1 h2
          exact hcr ⟨h1, r, h2⟩
        rw [splitlinesGo_cons ke acc c rest hx]
        by_cases hbr : isLineBreak c = true
        · rw [if_pos hbr]
          simp
        · rw [if_neg hbr]
          exact ih (c :: acc) (Or.inl (by simp))

/-- A non-empty string splits into at least one line. -/
theorem splitlines_ne_nil (ke : Bool) (s : List Char) (h : s ≠ []) :
    splitlines ke s ≠ [] :=
  splitlinesGo_ne_nil ke s [] (Or.inr h)

/-- For non-empty contents the classifier reduces to the threshold test. -/
theorem hsc_iff_ratio (c1 c2 : List Char) (t : ℚ) (h1 : c1 ≠ []) (h2 : c2 ≠ []) :
    has_significant_changes c1 c2 t = true ↔ change_ratio c1 c2 ≥ t := by
  unfold has_significant_changes
  rw [if_neg (by tauto), if_neg (by tauto), if_neg ?hm]
  · rw [decide_eq_true_eq]
  case hm =>
    have hne := splitlines_ne_nil false c1 h1
    have hlen : (splitlines false c1).length ≠ 0 := fun h =>
      hne (List.eq_nil_of_length_eq_zero h)
    unfold max_lines
    omega

/-- Contents with equal stripped line splits are never significant at a
positive threshold. -/
theorem hsc_false_of_equal_splits (c1 c2 : List Char) (t : ℚ)
    (h1 : c1 ≠ []) (h2 : c2 ≠ [])
    (hsp : splitlines false c1 = splitlines false c2) (ht : 0 < t) :
    has_significant_changes c1 c2 t = false := by
  have hz : change_ratio c1 c2 = 0 := by
    unfold change_ratio
    rw [changed_lines_eq_zero c1 c2 hsp]
    norm_num
  unfold has_significant_changes
  rw [if_neg (by tauto), if_neg (by tauto)]
  by_cases hm : max_lines c1 c2 = 0
  · rw [if_pos hm]
  · rw [if_neg hm]
    rw [decide_eq_false_iff_not]
    rw [hz]
    intro hge
    linarith

/-- Every element of one relative path's chunk of `scan_directories` carries
that path. -/
theorem scan_chunk_proj (files1 files2 : List (String × String))
    (readText : String → Option (List Char)) (t : ℚ) (rel : String)
    (e : Option String × Option String × String)
    (he : e ∈ (match lookupRel files1 rel, lookupRel files2 rel with
      | some f1, some f2 =>
          match readText f1, readText f2 with
          | some c1, some c2 =>
              if c1 ≠ c2 ∧ has_significant_changes c1 c2 t = true then
                [(some f1, some f2, rel)]
              else []
          | _, _ => [(some f1, some f2, rel)]
      | o1, o2 => [(o1, o2, rel)])) :
    e.2.2 = rel := by
  rcases hl1 : lookupRel files1 rel with _ | f1 <;>
    rcases hl2 : lookupRel files2 rel with _ | f2 <;>
    rw [hl1, hl2] at he
  · rw [List.mem_singleton.mp he]
  · rw [List.mem_singleton.mp he]
  · rw [List.mem_singleton.mp he]
  · have he2 : e ∈ (match readText f1, readText f2 with
        | some c1, some c2 =>
            if c1 ≠ c2 ∧ has_significant_changes c1 c2 t = true then
              [((some f1 : Option String), (some f2 : Option String), rel)]
            else []
        | _, _ => [((some f1 : Option String), (some f2 : Option String), rel)]) := he
    rcases hr1 : readText f1 with _ | c1 <;> rcases hr2 : readText f2 with _ | c2 <;>
      rw [hr1, hr2] at he2
    · rw [List.mem_singleton.mp he2]
    · rw [List.mem_singleton.mp he2]
    · rw [List.mem_singleton.mp he2]
    · have he' : e ∈ (if c1 ≠ c2 ∧ has_significant_changes c1 c2 t = true then
          [((some f1 : Option String), (some f2 : Option String), rel)] else []) := he2
      by_cases hc : c1 ≠ c2 ∧ has_significant_changes c1 c2 t = true
      · rw [if_pos hc] at he'
        rw [List.mem_singleton.mp he']
      · rw [if_neg hc] at he'
        cases he'

/-- A both-sided pair the classifier deems insignificant contributes no
element to the scan result. -/
theorem scan_drops (files1 files2 : List (String × String))
    (readText : String → Option (List Char)) (t : ℚ) (p f1 f2 : String)
    (c1 c2 : List Char)
    (h1 : lookupRel files1 p = some f1) (h2 : lookupRel files2 p = some f2)
    (hr1 : readText f1 = some c1) (hr2 : readText f2 = some c2)
    (hsig : has_significant_changes c1 c2 t = false) :
    ∀ e ∈ scan_directories files1 files2 readText t, e.2.2 ≠ p := by
  intro e he hep
  unfold scan_directories at he
  rw [List.mem_flatMap] at he
  obtain ⟨rel, hrel, hein⟩ := he
  have herel : e.2.2 = rel :=
    scan_chunk_proj files1 files2 readText t rel e hein
  have hrp : rel = p := by rw [← herel, hep]
  rw [hrp] at hein
  rw [h1, h2] at hein
  have hein2 : e ∈ (match readText f1, readText f2 with
      | some c1, some c2 =>
          if c1 ≠ c2 ∧ has_significant_changes c1 c2 t = true then
            [((some f1 : Option String), (some f2 : Option String), p)]
          else []
      | _, _ => [((some f1 : Option String), (some f2 : Option String), p)]) := hein
  rw [hr1, hr2] at hein2
  have hein' : e ∈ (if c1 ≠ c2 ∧ has_significant_changes c1 c2 t = true then
      [((some f1 : Option String), (some f2 : Option String), p)] else []) := hein2
  rw [if_neg (by
    rintro ⟨-, hx⟩
    rw [hsig] at hx
    cases hx)] at hein'
  cases hein'

/-!
## Scenario A of the specification

Left content: 20 identical lines `"a\n"`; right content: the same with the
last line changed to `"b\n"`.  The exact diff is not evaluated; the counting
identities of the round trip pin the ratio down far enough to settle the
claims about the scenario.
-/

theorem splitlinesGo_rep_a (rest : List Char) :
    ∀ n, splitlinesGo false [] (List.flatten (List.replicate n ['a', '\n']) ++ rest) =
      List.replicate n ['a'] ++ splitlinesGo false [] rest := by
  intro n
  induction n with
  | zero => simp
  | succ n ih =>
      rw [List.replicate_succ, List.flatten_cons, List.append_assoc,
        List.cons_append, List.cons_append, List.nil_append]
      rw [splitlinesGo_cons false [] 'a' _
        (by intro r h1 _; exact absurd h1 (by decide))]
      rw [if_neg (by decide)]
      rw [splitlinesGo_cons false ['a'] '\n' _
        (by intro r h1 _; exact absurd h1 (by decide))]
      rw [if_pos (by decide)]
      rw [ih]
      simp [List.replicate_succ]

theorem splitlines_rep (n : Nat) :
    splitlines false (List.flatten (List.replicate n ['a', '\n'])) =
      List.replicate n ['a'] := by
  unfold splitlines
  have h := splitlinesGo_rep_a [] n
  rw [List.append_nil] at h
  rw [h]
  show List.replicate n ['a'] ++ [] = List.replicate n ['a']
  rw [List.append_nil]

theorem splitlines_rep_b (n : Nat) :
    splitlines false (List.flatten (List.replicate n ['a', '\n']) ++ ['b', '\n']) =
      List.replicate n ['a'] ++ [['b']] := by
  unfold splitlines
  rw [splitlinesGo_rep_a ['b', '\n'] n]
  congr 1

/-- A script with no changed line projects identically to both sides. -/
theorem changedCount_zero_proj (d : List TL) :
    changedCount d = 0 → leftProj d = rightProj d := by
  induction d with
  | nil => intro _; rfl
  | cons tl rest ih =>
      intro h
      unfold changedCount at h
      rw [List.countP_cons] at h
      have h1 : List.countP (fun tl => tl.tag = '-' || tl.tag = '+') rest = 0 ∧
          ¬((tl.tag = '-' || tl.tag = '+') = true) := by
        by_cases hp : (tl.tag = '-' || tl.tag = '+') = true
        · rw [if_pos hp] at h
          exact absurd h (by omega)
        · rw [if_neg hp] at h
          exact ⟨by omega, hp⟩
      have htags : ¬tl.tag = '-' ∧ ¬tl.tag = '+' := by
        have := h1.2
        simp only [Bool.or_eq_true, decide_eq_true_eq] at this
        tauto
      have hrest := ih h1.1
      unfold leftProj rightProj at hrest ⊢
      by_cases hs : tl.tag = ' '
      · simp only [List.filterMap_cons,
          if_pos (Or.inr hs : tl.tag = '-' ∨ tl.tag = ' '),
          if_pos (Or.inr hs : tl.tag = '+' ∨ tl.tag = ' ')]
        rw [hrest]
      · simp only [List.filterMap_cons,
          if_neg (show ¬(tl.tag = '-' ∨ tl.tag = ' ') from by tauto),
          if_neg (show ¬(tl.tag = '+' ∨ tl.tag = ' ') from by tauto)]
        exact hrest

/-- The counting facts of Scenario A: at least one line is emitted as a
`'- '`/`'+ '` pair, so the ratio is at least `2/20 = 1/10` — in particular
not the spec's `1/20` — and the pair is significant at threshold `1/20`. -/
theorem scenarioA_facts :
    change_ratio (List.flatten (List.replicate 20 ['a', '\n']))
        (List.flatten (List.replicate 19 ['a', '\n']) ++ ['b', '\n']) ≥ 1 / 10 ∧
    ¬(change_ratio (List.flatten (List.replicate 20 ['a', '\n']))
        (List.flatten (List.replicate 19 ['a', '\n']) ++ ['b', '\n']) = 1 / 20) ∧
    has_significant_changes (List.flatten (List.replicate 20 ['a', '\n']))
        (List.flatten (List.replicate 19 ['a', '\n']) ++ ['b', '\n'])
      (1 / 20) = true := by
  have hspL : splitlines false (List.flatten (List.replicate 20 ['a', '\n'])) =
      List.replicate 20 ['a'] := splitlines_rep 20
  have hspR : splitlines false
      (List.flatten (List.replicate 19 ['a', '\n']) ++ ['b', '\n']) =
      List.replicate 19 ['a'] ++ [['b']] := splitlines_rep_b 19
  have hr1 : leftProj (differlines (List.replicate 20 ['a'])
      (List.replicate 19 ['a'] ++ [['b']])) = List.replicate 20 ['a'] :=
    (differ_compare_roundtrip (fun _ => false) (fun _ => false)
      (List.replicate 20 ['a']) (List.replicate 19 ['a'] ++ [['b']])).1
  have hr2 : rightProj (differlines (List.replicate 20 ['a'])
      (List.replicate 19 ['a'] ++ [['b']])) = List.replicate 19 ['a'] ++ [['b']] :=
    (differ_compare_roundtrip (fun _ => false) (fun _ => false)
      (List.replicate 20 ['a']) (List.replicate 19 ['a'] ++ [['b']])).2
  have hne0 : changedCount (differlines (List.replicate 20 ['a'])
      (List.replicate 19 ['a'] ++ [['b']])) ≠ 0 := by
    intro h0
    have heq := changedCount_zero_proj _ h0
    rw [hr1, hr2] at heq
    exact absurd heq (by decide)
  have hchanged : 2 ≤ changedCount (differlines (List.replicate 20 ['a'])
      (List.replicate 19 ['a'] ++ [['b']])) := by
    have e0 := changedCount_split (differlines (List.replicate 20 ['a'])
      (List.replicate 19 ['a'] ++ [['b']]))
    have e1 := leftProj_length (differlines (List.replicate 20 ['a'])
      (List.replicate 19 ['a'] ++ [['b']]))
    have e2 := rightProj_length (differlines (List.replicate 20 ['a'])
      (List.replicate 19 ['a'] ++ [['b']]))
    rw [hr1] at e1
    rw [hr2] at e2
    have hl1 : (List.replicate 20 (['a'] : Line)).length = 20 := by simp
    have hl2 : (List.replicate 19 (['a'] : Line) ++ [['b']]).length = 20 := by simp
    rw [hl1] at e1
    rw [hl2] at e2
    omega
  have hcl : changed_lines (List.flatten (List.replicate 20 ['a', '\n']))
      (List.flatten (List.replicate 19 ['a', '\n']) ++ ['b', '\n']) =
      changedCount (differlines (List.replicate 20 ['a'])
        (List.replicate 19 ['a'] ++ [['b']])) := by
    unfold changed_lines
    rw [hspL, hspR]
  have hml : max_lines (List.flatten (List.replicate 20 ['a', '\n']))
      (List.flatten (List.replicate 19 ['a', '\n']) ++ ['b', '\n']) = 20 := by
    unfold max_lines
    rw [hspL, hspR]
    simp
  have hratio : change_ratio (List.flatten (List.replicate 20 ['a', '\n']))
      (List.flatten (List.replicate 19 ['a', '\n']) ++ ['b', '\n']) =
      (changedCount (differlines (List.replicate 20 ['a'])
        (List.replicate 19 ['a'] ++ [['b']])) : ℚ) / 20 := by
    unfold change_ratio
    rw [hcl, hml]
    norm_num
  have hcast : (2 : ℚ) ≤ (changedCount (differlines (List.replicate 20 ['a'])
      (List.replicate 19 ['a'] ++ [['b']])) : ℚ) := by
    exact_mod_cast hchanged
  have hge : change_ratio (List.flatten (List.replicate 20 ['a', '\n']))
      (List.flatten (List.replicate 19 ['a', '\n']) ++ ['b', '\n']) ≥ 1 / 10 := by
    rw [hratio]
    rw [ge_iff_le, div_le_div_iff (by norm_num) (by norm_num)]
    linarith
  refine ⟨hge, ?_, ?_⟩
  · intro he
    rw [he] at hge
    norm_num at hge
  · rw [hsc_iff_ratio _ _ _ (by decide) (by decide)]
    linarith

/-!
## The specification's claims

Concrete evaluations below run the embedded pipeline inside the kernel;
the arithmetic of `ℚ` is made unfoldable for them.
-/

set_option allowUnsafeReducibility true

attribute [local semireducible] Rat.add Rat.mul Rat.sub Rat.inv

/-- C1 (counterexample): in the spec's Scenario A — left content 20
identical lines, right content changing exactly one of them — the code's
change ratio is not the claimed `1/20 = 0.05`: `Differ` emits a changed
line as a `'- '`/`'+ '` pair and `has_significant_changes` counts both
script lines, so the ratio is at least `2/20 = 1/10`. -/
theorem c1_counterexample :
    ¬(change_ratio (List.flatten (List.replicate 20 ['a', '\n']))
        (List.flatten (List.replicate 19 ['a', '\n']) ++ ['b', '\n']) = 1 / 20) ∧
    change_ratio (List.flatten (List.replicate 20 ['a', '\n']))
        (List.flatten (List.replicate 19 ['a', '\n']) ++ ['b', '\n']) ≥ 1 / 10 :=
  ⟨scenarioA_facts.2.1, scenarioA_facts.1⟩

/-- C1: for non-empty contents the classifier reports significant exactly
when `changed_lines / max_lines ≥ threshold` (equality included); in
Scenario A each changed line contributes both a `'- '` and a `'+ '` script
line, so the ratio is at least `2/20 = 1/10` (not `1/20`), and the default
threshold `1/20` classifies the pair as significant. -/
theorem c1_amended_theorem (c1 c2 : List Char) (t : ℚ)
    (h1 : c1 ≠ []) (h2 : c2 ≠ []) :
    (has_significant_changes c1 c2 t = true ↔ change_ratio c1 c2 ≥ t) ∧
    change_ratio (List.flatten (List.replicate 20 ['a', '\n']))
        (List.flatten (List.replicate 19 ['a', '\n']) ++ ['b', '\n']) ≥ 1 / 10 ∧
    has_significant_changes (List.flatten (List.replicate 20 ['a', '\n']))
        (List.flatten (List.replicate 19 ['a', '\n']) ++ ['b', '\n']) (1 / 20) = true :=
  ⟨hsc_iff_ratio c1 c2 t h1 h2, scenarioA_facts.1, scenarioA_facts.2.2⟩

/-- C1 witness: the amended classifier law instantiated at the non-empty
contents `"a"` and `"b"` with threshold `1`. -/
theorem c1_witness :
    (['a'] : List Char) ≠ [] ∧ (['b'] : List Char) ≠ [] ∧
    ((has_significant_changes ['a'] ['b'] 1 = true ↔ change_ratio ['a'] ['b'] ≥ 1) ∧
     change_ratio (List.flatten (List.replicate 20 ['a', '\n']))
        (List.flatten (List.replicate 19 ['a', '\n']) ++ ['b', '\n']) ≥ 1 / 10 ∧
     has_significant_changes (List.flatten (List.replicate 20 ['a', '\n']))
        (List.flatten (List.replicate 19 ['a', '\n']) ++ ['b', '\n']) (1 / 20) = true) :=
  ⟨by decide, by decide, c1_amended_theorem ['a'] ['b'] 1 (by decide) (by decide)⟩

set_option maxHeartbeats 4000000 in
/-- C2 (counterexample): for the contents `"a"` and `"a\n"` the renderer's
alignment (`splitlines(True)`) shows 2 changed lines while the classifier
(`splitlines()`) counts 0 — the two passes do not normalize line-terminator
handling consistently. -/
theorem c2_counterexample :
    changedCount (highlight_script ['a'] ['a', '\n']) = 2 ∧
    changed_lines ['a'] ['a', '\n'] = 0 ∧
    ¬(changedCount (highlight_script ['a'] ['a', '\n']) =
        changed_lines ['a'] ['a', '\n']) := by
  with_unfolding_all decide

/-- C2: the classifier splits with terminators stripped while the
highlighter splits with terminators kept; the two counts agree on contents
whose keepends split equals the stripped split (e.g. terminator-free
contents), not in general. -/
theorem c2_amended_theorem (c1 c2 : List Char)
    (h1 : splitlines true c1 = splitlines false c1)
    (h2 : splitlines true c2 = splitlines false c2) :
    changedCount (highlight_script c1 c2) = changed_lines c1 c2 := by
  unfold highlight_script changed_lines
  rw [h1, h2]

/-- C2 witness: the amended agreement instantiated at the terminator-free
contents `"a"` and `"b"`. -/
theorem c2_witness :
    splitlines true ['a'] = splitlines false ['a'] ∧
    splitlines true ['b'] = splitlines false ['b'] ∧
    changedCount (highlight_script ['a'] ['b']) = changed_lines ['a'] ['b'] :=
  ⟨by decide, by decide, c2_amended_theorem ['a'] ['b'] (by decide) (by decide)⟩

set_option maxHeartbeats 4000000 in
/-- C3 (counterexample): the change ratio of `"a"` vs `"b"` is `2`, outside
the claimed interval `[0, 1]`. -/
theorem c3_counterexample :
    change_ratio ['a'] ['b'] = 2 ∧ ¬(change_ratio ['a'] ['b'] ≤ 1) := by
  with_unfolding_all decide

/-- C3: the computed change ratio lies in `[0, 2]`, not `[0, 1]`: every
changed source line contributes a `'- '` and a `'+ '` output line, so the
numerator can reach twice the larger line count. -/
theorem c3_amended_theorem (c1 c2 : List Char) :
    0 ≤ change_ratio c1 c2 ∧ change_ratio c1 c2 ≤ 2 :=
  change_ratio_nonneg_le_two c1 c2

/-- C4: align round-trip — concatenating the Unchanged and LeftOnly lines of
the rendering alignment in script order reconstructs the left content's line
sequence, and Unchanged with RightOnly the right one. -/
theorem c4_roundtrip (c1 c2 : List Char) :
    leftProj (highlight_script c1 c2) = splitlines true c1 ∧
    rightProj (highlight_script c1 c2) = splitlines true c2 :=
  differ_compare_roundtrip (fun _ => false) (fun _ => false)
    (splitlines true c1) (splitlines true c2)

/-- C5: a relative path present in exactly one of the two enumerations
always appears in the scan result, with the missing side `none`, for every
threshold (including `1`) and every read oracle — the classifier is not
consulted on that path. -/
theorem c5_single_sided (files1 files2 : List (String × String))
    (readText : String → Option (List Char)) (t : ℚ) (p : String)
    (h : (lookupRel files1 p).isSome ≠ (lookupRel files2 p).isSome) :
    (lookupRel files1 p, lookupRel files2 p, p) ∈
      scan_directories files1 files2 readText t :=
  scan_retains_single_sided files1 files2 readText t p h

/-- C5 witness: a left-only file at threshold `1`. -/
theorem c5_witness :
    ((lookupRel [("a", "L")] "a").isSome ≠
      (lookupRel ([] : List (String × String)) "a").isSome) ∧
    (lookupRel [("a", "L")] "a", lookupRel ([] : List (String × String)) "a", "a") ∈
      scan_directories [("a", "L")] [] (fun _ => none) 1 :=
  ⟨by decide, c5_single_sided [("a", "L")] [] (fun _ => none) 1 "a" (by decide)⟩

/-- C6: the scan result is sorted lexicographically by relative path, and it
is invariant under reordering the enumerations (whose keys are distinct):
scanning the same unchanged trees in any filesystem iteration order yields
identical ordered output. -/
theorem c6_sorted_deterministic
    (files1 files1' files2 files2' : List (String × String))
    (readText : String → Option (List Char)) (t : ℚ)
    (h1 : files1.Perm files1') (h2 : files2.Perm files2')
    (hnd1 : (files1.map Prod.fst).Nodup) (hnd2 : (files2.map Prod.fst).Nodup) :
    List.Sorted (· ≤ ·)
      ((scan_directories files1 files2 readText t).map (fun e => e.2.2)) ∧
    scan_directories files1 files2 readText t =
      scan_directories files1' files2' readText t :=
  ⟨scan_directories_sorted files1 files2 readText t,
   scan_directories_perm files1 files1' files2 files2' readText t h1 h2 hnd1 hnd2⟩

/-- C6 witness: a two-file left enumeration scanned in both orders. -/
theorem c6_witness :
    ([("a", "1"), ("b", "2")] : List (String × String)).Perm
      [("b", "2"), ("a", "1")] ∧
    ([] : List (String × String)).Perm [] ∧
    (([("a", "1"), ("b", "2")] : List (String × String)).map Prod.fst).Nodup ∧
    (([] : List (String × String)).map Prod.fst).Nodup ∧
    (List.Sorted (· ≤ ·)
      ((scan_directories [("a", "1"), ("b", "2")] [] (fun _ => none) 0).map
        (fun e => e.2.2)) ∧
     scan_directories [("a", "1"), ("b", "2")] [] (fun _ => none) 0 =
       scan_directories [("b", "2"), ("a", "1")] [] (fun _ => none) 0) :=
  ⟨by decide, by decide, by decide, by decide,
   c6_sorted_deterministic [("a", "1"), ("b", "2")] [("b", "2"), ("a", "1")] [] []
     (fun _ => none) 0 (by decide) (by decide) (by decide) (by decide)⟩

set_option maxHeartbeats 4000000 in
/-- C7 (counterexample): with the out-of-range threshold `2` the scan is
not aborted — no validation exists — and it returns a file pair computed by
the normal pipeline. -/
theorem c7_counterexample :
    scan_directories [("a", "f1")] [("a", "f2")]
        (fun s => if s = "f1" then some ['a'] else
          if s = "f2" then some ['b'] else none) 2 =
      [(some "f1", some "f2", "a")] ∧
    scan_directories [("a", "f1")] [("a", "f2")]
        (fun s => if s = "f1" then some ['a'] else
          if s = "f2" then some ['b'] else none) 2 ≠ [] := by
  with_unfolding_all decide

/-- C7: the code validates neither the threshold nor the roots and has no
fail-fast path: for a threshold outside `[0, 1]` the scan still completes
normally — its output is sorted and still retains every single-sided
path. -/
theorem c7_amended_theorem (files1 files2 : List (String × String))
    (readText : String → Option (List Char)) (t : ℚ)
    (hinvalid : t < 0 ∨ 1 < t) :
    List.Sorted (· ≤ ·)
      ((scan_directories files1 files2 readText t).map (fun e => e.2.2)) ∧
    ∀ p, (lookupRel files1 p).isSome ≠ (lookupRel files2 p).isSome →
      (lookupRel files1 p, lookupRel files2 p, p) ∈
        scan_directories files1 files2 readText t :=
  ⟨scan_directories_sorted files1 files2 readText t,
   fun p h => scan_retains_single_sided files1 files2 readText t p h⟩

/-- C7 witness: the amended no-abort law at the invalid threshold `2`. -/
theorem c7_witness :
    ((2 : ℚ) < 0 ∨ 1 < (2 : ℚ)) ∧
    (List.Sorted (· ≤ ·)
      ((scan_directories [("a", "L")] [] (fun _ => none) 2).map (fun e => e.2.2)) ∧
     ∀ p, (lookupRel [("a", "L")] p).isSome ≠
         (lookupRel ([] : List (String × String)) p).isSome →
       (lookupRel [("a", "L")] p, lookupRel ([] : List (String × String)) p, p) ∈
         scan_directories [("a", "L")] [] (fun _ => none) 2) :=
  ⟨Or.inr (by decide), c7_amended_theorem [("a", "L")] [] (fun _ => none) 2
    (Or.inr (by decide))⟩

/-- C8: the classifier is monotone in the threshold — if a pair is
significant at `t1` and `t2 ≤ t1`, it is significant at `t2`. -/
theorem c8_monotone (c1 c2 : List Char) (t1 t2 : ℚ) (hle : t2 ≤ t1)
    (h : has_significant_changes c1 c2 t1 = true) :
    has_significant_changes c1 c2 t2 = true := by
  unfold has_significant_changes at h ⊢
  by_cases hA : (c1 = [] ∧ c2 ≠ []) ∨ (c2 = [] ∧ c1 ≠ [])
  · rw [if_pos hA]
  · rw [if_neg hA] at h ⊢
    by_cases hB : c1 = [] ∧ c2 = []
    · rw [if_pos hB] at h
      exact Bool.noConfusion h
    · rw [if_neg hB] at h ⊢
      by_cases hC : max_lines c1 c2 = 0
      · rw [if_pos hC] at h
        exact Bool.noConfusion h
      · rw [if_neg hC] at h ⊢
        rw [decide_eq_true_eq] at h ⊢
        linarith

set_option maxHeartbeats 4000000 in
/-- C8 witness: significance of `"a"` vs `"b"` at threshold `1` transfers
to threshold `0`. -/
theorem c8_witness :
    (0 : ℚ) ≤ 1 ∧ has_significant_changes ['a'] ['b'] 1 = true ∧
    has_significant_changes ['a'] ['b'] 0 = true :=
  ⟨by decide, by with_unfolding_all decide,
   c8_monotone ['a'] ['b'] 1 0 (by decide) (by with_unfolding_all decide)⟩

set_option maxHeartbeats 16000000 in
set_option maxRecDepth 100000 in
/-- C9 (counterexample): the change ratio is not symmetric: for the
contents `"9\n1\n2\n3\n4"` and `"3\n4\n9\n7\n1\n2"` the two argument orders
give `5/6` and `7/6`. -/
theorem c9_counterexample :
    change_ratio ['9', '\n', '1', '\n', '2', '\n', '3', '\n', '4']
        ['3', '\n', '4', '\n', '9', '\n', '7', '\n', '1', '\n', '2'] = 5 / 6 ∧
    change_ratio ['3', '\n', '4', '\n', '9', '\n', '7', '\n', '1', '\n', '2']
        ['9', '\n', '1', '\n', '2', '\n', '3', '\n', '4'] = 7 / 6 ∧
    ¬(change_ratio ['9', '\n', '1', '\n', '2', '\n', '3', '\n', '4']
        ['3', '\n', '4', '\n', '9', '\n', '7', '\n', '1', '\n', '2'] =
      change_ratio ['3', '\n', '4', '\n', '9', '\n', '7', '\n', '1', '\n', '2']
        ['9', '\n', '1', '\n', '2', '\n', '3', '\n', '4']) := by
  with_unfolding_all decide

/-- C9: only the denominator of the ratio is symmetric — `max_lines`
commutes in its two contents; the numerator, `Differ`'s changed-line count,
is direction-dependent, so the ratio itself is not. -/
theorem c9_amended_theorem (c1 c2 : List Char) :
    max_lines c1 c2 = max_lines c2 c1 := by
  unfold max_lines
  exact Nat.max_comm _ _

/-- C10: two non-empty contents whose stripped line splits agree — in
particular contents differing only in a trailing final newline — yield zero
changed lines, are reported not significant at every positive threshold,
and contribute no pair to the scan result. -/
theorem c10_trailing_newline (c1 c2 : List Char) (t : ℚ)
    (h1 : c1 ≠ []) (h2 : c2 ≠ [])
    (hsp : splitlines false c1 = splitlines false c2) (ht : 0 < t) :
    changed_lines c1 c2 = 0 ∧
    has_significant_changes c1 c2 t = false ∧
    ∀ (files1 files2 : List (String × String))
      (readText : String → Option (List Char)) (p f1 f2 : String),
      lookupRel files1 p = some f1 → lookupRel files2 p = some f2 →
      readText f1 = some c1 → readText f2 = some c2 →
      ∀ e ∈ scan_directories files1 files2 readText t, e.2.2 ≠ p :=
  ⟨changed_lines_eq_zero c1 c2 hsp,
   hsc_false_of_equal_splits c1 c2 t h1 h2 hsp ht,
   fun files1 files2 readText p f1 f2 hl1 hl2 hr1 hr2 =>
     scan_drops files1 files2 readText t p f1 f2 c1 c2 hl1 hl2 hr1 hr2
       (hsc_false_of_equal_splits c1 c2 t h1 h2 hsp ht)⟩

/-- C10 witness: the contents `"a"` and `"a\n"` at threshold `1/20`. -/
theorem c10_witness :
    (['a'] : List Char) ≠ [] ∧ (['a', '\n'] : List Char) ≠ [] ∧
    splitlines false ['a'] = splitlines false ['a', '\n'] ∧
    (0 : ℚ) < 1 / 20 ∧
    (changed_lines ['a'] ['a', '\n'] = 0 ∧
     has_significant_changes ['a'] ['a', '\n'] (1 / 20) = false ∧
     ∀ (files1 files2 : List (String × String))
       (readText : String → Option (List Char)) (p f1 f2 : String),
       lookupRel files1 p = some f1 → lookupRel files2 p = some f2 →
       readText f1 = some ['a'] → readText f2 = some ['a', '\n'] →
       ∀ e ∈ scan_directories files1 files2 readText (1 / 20), e.2.2 ≠ p) :=
  ⟨by decide, by decide, by decide, by decide,
   c10_trailing_newline ['a'] ['a', '\n'] (1 / 20) (by decide) (by decide)
     (by decide) (by decide)⟩

end DiffTool
